import Mathlib

/-!
kubeimageswap: the pod-mutating webhook of `mutatingwebhook.go`

A shallow embedding of `transform`, `imageNamesWithDigestOrTag`,
`evaluatesJMESPaths` and `kubeimageswap.Default`.

* Go strings are Lean strings (sequences of Unicode code points); the functions of
  package `strings` that the code calls are defined below on their characters.
* A Go `(T, error)` result is a pair `T × Option GoError`, `none` standing for `nil`.
* A Go `map[string]string` is a list of entries.  The language does not fix the order in
  which `range` visits a map, so every function that ranges over the mapping receives the
  entries in the order of that particular visit, and `Default` receives a `RangeOrder`
  that chooses the order of each visit.
* The imported packages (`docker/reference`, `docker`, `encoding/json`, `go-jmespath`) are
  not part of the repository: the program is parameterised by a `Packages` record holding
  the functions it calls.  Theorems about the program hold for every such record; `pkgs`
  is one concrete record, used to run the program on explicit inputs and to prove what
  depends on the strings that the reference package parses and prints.
-/

namespace Kubeimageswap

/-! ## Values of the Go program -/

/-- Values of Go type `error` that the program can hold. -/
inductive GoError
  /-- `errNotBoolValue = errors.New("filter does not return a bool value")` -/
  | errNotBoolValue
  /-- `errNotNegative = errors.New("returned value is not true")` -/
  | errNotNegative
  /-- A value built by `fmt.Errorf`, with its formatted message. -/
  | errorf (msg : String)
  /-- An error returned by an imported package, with its message. -/
  | pkg (msg : String)
  deriving DecidableEq, Repr

/-- Dynamic value of the `interface{}` returned by `(*JMESPath).Search`; the type switch of
`evaluatesJMESPaths` only tells `bool` from every other dynamic type. -/
inductive Any
  | bool (b : Bool)
  | other (goType : String)
  deriving DecidableEq, Repr

/-- A Go `map[string]string`, as the list of its entries. -/
abbrev Mapping := List (String × String)

/-- The fields of `corev1.Container` (and of `corev1.EphemeralContainer`) that the webhook
reads or writes. -/
structure Container where
  Name : String
  Image : String
  deriving DecidableEq, Repr

/-- The fields of `corev1.Pod` that the webhook reads or writes; `Annotations = none` is the
nil map. -/
structure Pod where
  Annotations : Option Mapping
  Containers : List Container
  InitContainers : List Container
  EphemeralContainers : List Container
  deriving DecidableEq, Repr

/-- A `runtime.Object`: a `*corev1.Pod`, or a value of another Go type (named by `%T`). -/
inductive Object
  | pod (p : Pod)
  | other (goType : String)
  deriving DecidableEq, Repr

/-- The `options` struct (lines 36-39). -/
structure options where
  filters : List String
  mapping : Mapping
  deriving DecidableEq, Repr

/-! ## Package `strings` -/

/-- `strings.HasPrefix(s, p)`. -/
def HasPrefix (s p : String) : Bool :=
  p.data.isPrefixOf s.data

/-- Left-to-right scan of `strings.Replace` for a non-empty `old`: `skip` counts the
characters of the occurrence just replaced that are still to be passed over. -/
def replaceFrom (old new : List Char) : Nat → List Char → List Char
  | _, [] => []
  | skip + 1, _ :: cs => replaceFrom old new skip cs
  | 0, c :: cs =>
    if old.isPrefixOf (c :: cs) then new ++ replaceFrom old new (old.length - 1) cs
    else c :: replaceFrom old new 0 cs

/-- `strings.ReplaceAll(s, old, new)`: every non-overlapping occurrence of `old` is replaced
by `new`; an empty `old` matches at the beginning of the string and after each character. -/
def ReplaceAll (s old new : String) : String :=
  if old.data = [] then ⟨new.data ++ s.data.flatMap (fun c => c :: new.data)⟩
  else ⟨replaceFrom old.data new.data 0 s.data⟩

/-- `strings.Join(elems, sep)`. -/
def Join (elems : List String) (sep : String) : String :=
  sep.intercalate elems

/-! ## Go maps -/

/-- The map index expression `m[k]` with its presence flag. -/
def mapIndex (m : Mapping) (k : String) : Option String :=
  (m.find? (fun e => e.1 = k)).map (fun e => e.2)

/-- The map assignment `m[k] = v`. -/
def mapAssign (m : Mapping) (k v : String) : Mapping :=
  (k, v) :: m.filter (fun e => e.1 ≠ k)

/-- The order of the visits of `range` over a map: `visit n m` lists the entries of `m` in the
order in which the `n`-th `range` statement executed by a call visits them. -/
structure RangeOrder where
  visit : Nat → Mapping → Mapping
  perm : ∀ n m, (visit n m).Perm m

/-- The visiting order that follows the list as written. -/
def RangeOrder.asListed : RangeOrder :=
  ⟨fun _ m => m, fun _ m => List.Perm.refl m⟩

/-- The visiting order that follows the list backwards. -/
def RangeOrder.backwards : RangeOrder :=
  ⟨fun _ m => m.reverse, fun _ m => List.reverse_perm m⟩

/-! ## The imported packages -/

/-- The functions of the imported packages that the program calls.  An `Except String`
result carries the message of the returned error. -/
structure Packages where
  /-- Values of `reference.Named`. -/
  Named : Type
  /-- Values of `digest.Digest`. -/
  Digest : Type
  /-- Values of `types.ImageReference` returned by `docker.ParseReference`. -/
  ImageReference : Type
  /-- Values of `[]byte` produced by `json.Marshal`. -/
  Bytes : Type
  /-- Values of `interface{}` produced by `json.Unmarshal`. -/
  Tree : Type
  /-- Compiled expressions, `*jmespath.JMESPath`. -/
  JMESPath : Type
  /-- `reference.ParseNormalizedNamed`. -/
  ParseNormalizedNamed : String → Except String Named
  /-- The type assertion `ref.(reference.NamedTagged)` succeeds. -/
  isNamedTagged : Named → Bool
  /-- The type assertion `ref.(reference.Canonical)` succeeds. -/
  isCanonical : Named → Bool
  /-- The method `Digest()` of a `reference.Canonical`. -/
  DigestOf : Named → Digest
  /-- `reference.TrimNamed`. -/
  TrimNamed : Named → Named
  /-- `reference.WithDigest`. -/
  WithDigest : Named → Digest → Except String Named
  /-- The method `String()` of a reference. -/
  RefString : Named → String
  /-- `docker.ParseReference`. -/
  ParseReference : String → Except String ImageReference
  /-- The method `DockerReference()` of an image reference. -/
  DockerReference : ImageReference → Named
  /-- `json.Marshal`, applied to the admitted object. -/
  Marshal : Object → Except String Bytes
  /-- `json.Unmarshal` into an `interface{}`. -/
  Unmarshal : Bytes → Except String Tree
  /-- `(*JMESPath).Search`. -/
  Search : JMESPath → Tree → Except String Any

/-- The `query` struct (lines 46-49): the source text and the compiled expression. -/
structure query (P : Packages) where
  raw : String
  JMESPath : P.JMESPath

/-- The method `(*query).String` (lines 51-53). -/
def query.String {P : Packages} (q : query P) : String :=
  q.raw

/-- The `kubeimageswap` struct (lines 77-80). -/
structure kubeimageswap (P : Packages) where
  queries : List (query P)
  mapping : Mapping

/-! ## The program -/

/-- `imageNamesWithDigestOrTag` (lines 186-201). -/
def imageNamesWithDigestOrTag (P : Packages) (imageName : String) : String × Option GoError :=
  match P.ParseNormalizedNamed imageName with
  | .error err => ("", some (.pkg err))
  | .ok ref =>
    let isTagged := P.isNamedTagged ref
    let isDigested := P.isCanonical ref
    if isTagged && isDigested then
      match P.WithDigest (P.TrimNamed ref) (P.DigestOf ref) with
      | .error err => ("", some (.pkg err))
      | .ok canonical => (P.RefString canonical, none)
    else (imageName, none)

/-- `transform` (lines 168-184).  `mapping` lists the entries of the map in the order in which
the `range` statement of this call visits them. -/
def transform (P : Packages) (s : String) (mapping : Mapping) : String × Option GoError :=
  match imageNamesWithDigestOrTag P s with
  | (_, some err) => (s, some err)
  | (normalizedName, none) =>
    match P.ParseReference ("//" ++ normalizedName) with
    | .error err => (s, some (.pkg err))
    | .ok ref =>
      let refStr := P.RefString (P.DockerReference ref)
      match mapping.find? (fun kv => HasPrefix refStr kv.1) with
      | some (k, v) => (ReplaceAll refStr k v, none)
      | none => (s, none)

/-- The string `ref.DockerReference().String()` that `transform` computes for `s` (line 179),
when both parsing steps succeed: the canonical string form of the image `s`. -/
def canonicalString (P : Packages) (s : String) : Option String :=
  match imageNamesWithDigestOrTag P s with
  | (_, some _) => none
  | (normalizedName, none) =>
    match P.ParseReference ("//" ++ normalizedName) with
    | .error _ => none
    | .ok ref => some (P.RefString (P.DockerReference ref))

/-- The `for _, q := range queries` loop of `evaluatesJMESPaths` (lines 149-164) followed by
the final `return false, errNotNegative` (line 165). -/
def searchQueries (P : Packages) (obj : P.Tree) : List (query P) → Bool × Option GoError
  | [] => (false, some .errNotNegative)
  | q :: rest =>
    match P.Search q.JMESPath obj with
    | .error err =>
      (false, some (.errorf ("failed to evaluates a JMESPath expression(" ++ q.String ++ "): " ++ err)))
    | .ok (.bool true) => (true, none)
    | .ok (.bool false) => searchQueries P obj rest
    | .ok (.other _) => (false, some .errNotBoolValue)

/-- `evaluatesJMESPaths` (lines 140-166). -/
def evaluatesJMESPaths (P : Packages) (queries : List (query P)) (v : Object) :
    Bool × Option GoError :=
  match P.Marshal v with
  | .error err => (true, some (.errorf ("unable to deserialize: " ++ err)))
  | .ok out =>
    match P.Unmarshal out with
    | .error err => (true, some (.errorf ("unable to serialize: " ++ err)))
    | .ok obj => searchQueries P obj queries

/-- What one container loop of `Default` leaves behind: the slice it ranged over, the names
appended to `mutated`, and the error it returned with, if any. -/
structure Loop where
  containers : List Container
  mutated : List String
  err : Option GoError
  deriving DecidableEq, Repr

/-- One container loop of `Default` (lines 104-115, and lines 118-129 for the ephemeral
containers).  `n` is the number of `range mapping` statements executed before the loop
reaches the head of the list, `mutated` the names collected so far. -/
def rangeContainers (P : Packages) (ρ : RangeOrder) (mapping : Mapping) :
    Nat → List String → List Container → Loop
  | _, mutated, [] => ⟨[], mutated, none⟩
  | n, mutated, ctr :: rest =>
    match transform P ctr.Image (ρ.visit n mapping) with
    | (_, some err) => ⟨ctr :: rest, mutated, some err⟩
    | (ret, none) =>
      if ret ≠ ctr.Image then
        let r := rangeContainers P ρ mapping (n + 1) (mutated ++ [ctr.Name]) rest
        ⟨{ ctr with Image := ret } :: r.containers, r.mutated, r.err⟩
      else
        let r := rangeContainers P ρ mapping (n + 1) mutated rest
        ⟨ctr :: r.containers, r.mutated, r.err⟩

/-- Lines 89-91 of `Default`: a nil annotation map is replaced by an empty one. -/
def ensureAnnotations (pod : Pod) : Pod :=
  if pod.Annotations = none then { pod with Annotations := some [] } else pod

/-- `(*kubeimageswap).Default` (lines 82-137): the object after the call and the returned
error. -/
def Default (P : Packages) (k : kubeimageswap P) (ρ : RangeOrder) (obj : Object) :
    Object × Option GoError :=
  match obj with
  | .other goType => (obj, some (.errorf ("expected a Pod but got a " ++ goType)))
  | .pod pod0 =>
    let pod : Pod := ensureAnnotations pod0
    let matched := (evaluatesJMESPaths P k.queries (.pod pod)).1
    if matched then (.pod pod, none)
    else
      let c := rangeContainers P ρ k.mapping 0 [] pod.Containers
      match c.err with
      | some err => (.pod { pod with Containers := c.containers }, some err)
      | none =>
        let i := rangeContainers P ρ k.mapping pod.Containers.length c.mutated
          pod.InitContainers
        match i.err with
        | some err =>
          (.pod { pod with Containers := c.containers, InitContainers := i.containers },
            some err)
        | none =>
          let e := rangeContainers P ρ k.mapping
            (pod.Containers.length + pod.InitContainers.length) i.mutated
            pod.EphemeralContainers
          let pod1 : Pod :=
            { pod with
              Containers := c.containers
              InitContainers := i.containers
              EphemeralContainers := e.containers }
          match e.err with
          | some err => (.pod pod1, some err)
          | none =>
            if e.mutated.length > 0 then
              (.pod { pod1 with
                Annotations := some (mapAssign (pod1.Annotations.getD [])
                  "containers.mutated" (Join e.mutated ",")) }, none)
            else (.pod pod1, none)

/-! ## Vocabulary of the statements -/

/-- The containers of a pod in the order in which `Default` visits them: regular, then init,
then ephemeral. -/
def allContainers (pod : Pod) : List Container :=
  pod.Containers ++ pod.InitContainers ++ pod.EphemeralContainers

/-- The entries of the annotation map of a pod, none for the nil map. -/
def annotationsOf (pod : Pod) : Mapping :=
  pod.Annotations.getD []

/-- The names of the containers whose image in `after` differs from their image in `before`,
position by position, in the order of the lists. -/
def changedNames (before after : List Container) : List String :=
  ((before.zip after).filter (fun ba => ba.2.Image ≠ ba.1.Image)).map (fun ba => ba.1.Name)

/-- The container `c`, visited as the `i`-th container of the call, carrying the image that
`transform` returns for it. -/
def rewritten (P : Packages) (ρ : RangeOrder) (mapping : Mapping) (i : Nat) (c : Container) :
    Container :=
  { c with Image := (transform P c.Image (ρ.visit i mapping)).1 }

/-- The containers `cs`, visited from position `n` on, each carrying its rewritten image. -/
def rewriteAll (P : Packages) (ρ : RangeOrder) (mapping : Mapping) (n : Nat)
    (cs : List Container) : List Container :=
  (cs.enumFrom n).map (fun ic => rewritten P ρ mapping ic.1 ic.2)

/-- Every container of `cs`, visited from position `n` on, is rewritten by `transform`
without error. -/
def allTransformed (P : Packages) (ρ : RangeOrder) (mapping : Mapping) (n : Nat)
    (cs : List Container) : Bool :=
  (cs.enumFrom n).all (fun ic => (transform P ic.2.Image (ρ.visit ic.1 mapping)).2 = none)

/-! ## A concrete record of packages

The imported packages are not under src/.  The record `pkgs` below follows the
image-reference grammar `[registry-host[:port]/]repository-path[:tag][@digest]` of the
specification, with the default registry `docker.io` and the default namespace `library`, in
the detail documented by package `docker/reference`; its query engine is the black-box
evaluator, a compiled expression being a function of the tree.  It serves to run the program
on explicit inputs, and the statements about normalized names are proved for it. -/

namespace reference

/-- Modelled from the spec: the parsed image reference of package `docker/reference`
(imported, not under src/), with its registry host, repository path, tag and digest; an
absent part is the empty string. -/
structure Ref where
  domain : String
  path : String
  tag : String
  digest : String
  deriving DecidableEq, Repr

/-- Modelled from the spec: the character class `[a-z0-9]` of name components. -/
def isLowerAlnum (c : Char) : Bool :=
  c.isLower || c.isDigit

/-- Modelled from the spec: the character class of tags, letters, digits and underscore. -/
def isWord (c : Char) : Bool :=
  c.isAlphanum || c = '_'

/-- Modelled from the spec: a lower-case hexadecimal digit. -/
def isLowerHex (c : Char) : Bool :=
  c.isDigit || (97 ≤ c.toNat && c.toNat ≤ 102)

/-- Modelled from the spec: a hexadecimal digit of either case. -/
def isHex (c : Char) : Bool :=
  isLowerHex c || (65 ≤ c.toNat && c.toNat ≤ 70)

/-- Modelled from the spec: a separator inside a name component, one period, one or two
underscores, or dashes. -/
def isSeparator (run : List Char) : Bool :=
  run = ['.'] || run = ['_'] || run = ['_', '_'] || run.all (fun c => c = '-')

/-- Modelled from the spec: a component of a repository path, runs of `[a-z0-9]` joined by
separators. -/
def isNameComponent (cs : List Char) : Bool :=
  let runs := cs.splitOnP isLowerAlnum
  decide (2 ≤ runs.length) && runs.head? = some [] && runs.getLast? = some [] &&
    runs.all isSeparator

/-- Modelled from the spec: a label of a registry host name. -/
def isDomainComponent (cs : List Char) : Bool :=
  (cs.head?.map Char.isAlphanum).getD false && (cs.getLast?.map Char.isAlphanum).getD false &&
    cs.all (fun c => c.isAlphanum || c = '-')

/-- Modelled from the spec: a registry host with an optional port, `registry-host[:port]`. -/
def isDomain (cs : List Char) : Bool :=
  let hostPort := cs.span (fun c => c ≠ ':')
  (hostPort.1.splitOnP (fun c => c = '.')).all isDomainComponent &&
    (hostPort.2 = [] || (hostPort.2.tail ≠ [] && hostPort.2.tail.all Char.isDigit))

/-- Modelled from the spec: a tag, a word character followed by at most 127 word characters,
periods and dashes. -/
def isTag : List Char → Bool
  | [] => false
  | c :: rest =>
    isWord c && rest.all (fun d => isWord d || d = '.' || d = '-') && decide (rest.length ≤ 127)

/-- Modelled from the spec: the shape of a digest, `algorithm:hex` with at least 32
hexadecimal digits. -/
def isDigestFormat (cs : List Char) : Bool :=
  let algoHex := cs.span (fun c => c ≠ ':')
  (algoHex.1.splitOnP (fun c => c = '-' || c = '_' || c = '+' || c = '.')).all
      (fun part => (part.head?.map Char.isAlpha).getD false && part.all Char.isAlphanum) &&
    algoHex.2.head? = some ':' && decide (32 ≤ algoHex.2.tail.length) && algoHex.2.tail.all isHex

/-- Modelled from the spec: a content digest of a supported algorithm, lower-case hexadecimal
of the length of the algorithm. -/
def isDigest (cs : List Char) : Bool :=
  let algoHex := cs.span (fun c => c ≠ ':')
  algoHex.2.head? = some ':' && algoHex.2.tail.all isLowerHex &&
    ((algoHex.1 = "sha256".data && algoHex.2.tail.length = 64) ||
     (algoHex.1 = "sha384".data && algoHex.2.tail.length = 96) ||
     (algoHex.1 = "sha512".data && algoHex.2.tail.length = 128))

/-- Modelled from the spec: the split of a string along the grammar
`[registry-host[:port]/]repository-path[:tag][@digest]`; `none` when the string is not of
that form. -/
def matchReference (s : List Char) : Option Ref :=
  let nameDigest := s.span (fun c => c ≠ '@')
  let segs := nameDigest.1.splitOnP (fun c => c = '/')
  let lastTag := (segs.getLast?.getD []).span (fun c => c ≠ ':')
  let names := segs.dropLast ++ [lastTag.1]
  if (nameDigest.2 = [] || isDigestFormat nameDigest.2.tail) &&
      (lastTag.2 = [] || isTag lastTag.2.tail) then
    if decide (2 ≤ names.length) && isDomain (names.headD []) &&
        names.tail.all isNameComponent then
      some ⟨⟨names.headD []⟩, ⟨List.intercalate ['/'] names.tail⟩, ⟨lastTag.2.tail⟩,
        ⟨nameDigest.2.tail⟩⟩
    else if names.all isNameComponent then
      some ⟨"", ⟨List.intercalate ['/'] names⟩, ⟨lastTag.2.tail⟩, ⟨nameDigest.2.tail⟩⟩
    else none
  else none

/-- Modelled from the spec: the segments between the `/` of the name part of a reference
string, the name part being what precedes `@` and the tag being cut off the last segment. -/
def nameSegments (s : List Char) : List (List Char) :=
  let segs := (s.span (fun c => c ≠ '@')).1.splitOnP (fun c => c = '/')
  segs.dropLast ++ [((segs.getLast?.getD []).span (fun c => c ≠ ':')).1]

/-- Modelled from the spec: the name of a reference, registry host and repository path. -/
def Ref.Name (r : Ref) : String :=
  if r.domain = "" then r.path else r.domain ++ "/" ++ r.path

/-- Modelled from the spec: the canonical string of a reference,
`name[:tag][@digest]`. -/
def Ref.String (r : Ref) : String :=
  r.Name ++ (if r.tag = "" then "" else ":" ++ r.tag) ++
    (if r.digest = "" then "" else "@" ++ r.digest)

/-- Modelled from the spec: `reference.Parse`, which fails with `InvalidReferenceError` when
the input does not conform to the grammar. -/
def Parse (s : String) : Except String Ref :=
  match matchReference s.data with
  | none =>
    if s = "" then .error "repository name must have at least one component"
    else if (matchReference (s.data.map Char.toLower)).isSome then
      .error "repository name must be lowercase"
    else .error "invalid reference format"
  | some r =>
    if r.Name.length > 255 then
      .error "repository name must not be more than 255 characters"
    else if r.digest ≠ "" && !isDigest r.digest.data then
      .error "invalid checksum digest"
    else .ok r

/-- Modelled from the spec: the defaulting of a name without a registry host, against the
implied default registry `docker.io` and default namespace `library`. -/
def splitDockerDomain (name : List Char) : List Char × List Char :=
  let hostRest := name.span (fun c => c ≠ '/')
  let split : List Char × List Char :=
    if hostRest.2 = [] ||
        (!hostRest.1.any (fun c => c = '.' || c = ':') && hostRest.1 ≠ "localhost".data) then
      ("docker.io".data, name)
    else (hostRest.1, hostRest.2.tail)
  let domain := if split.1 = "index.docker.io".data then "docker.io".data else split.1
  if domain = "docker.io".data && !split.2.any (fun c => c = '/') then
    (domain, "library/".data ++ split.2)
  else (domain, split.2)

/-- Modelled from the spec: `reference.ParseNormalizedNamed`, the Reference Normalizer's
parser. -/
def ParseNormalizedNamed (s : String) : Except String Ref :=
  if s.length = 64 && s.data.all isLowerHex then
    .error ("invalid repository name (" ++ s ++ "), cannot specify 64-byte hexadecimal strings")
  else
    let dr := splitDockerDomain s.data
    if (dr.2.span (fun c => c ≠ ':')).1.any Char.isUpper then
      .error "invalid reference format: repository name must be lowercase"
    else Parse ⟨dr.1 ++ '/' :: dr.2⟩

/-- Modelled from the spec: `reference.TrimNamed`, the name alone. -/
def TrimNamed (r : Ref) : Ref :=
  { r with tag := "", digest := "" }

/-- Modelled from the spec: `reference.WithDigest`, the name of a reference with a
digest. -/
def WithDigest (r : Ref) (digest : String) : Except String Ref :=
  if isDigestFormat digest.data then .ok { r with digest := digest }
  else .error "invalid digest format"

/-- Modelled from the spec: `reference.TagNameOnly`, which adds the tag `latest` to a
reference that has neither tag nor digest. -/
def TagNameOnly (r : Ref) : Ref :=
  if r.tag = "" && r.digest = "" then { r with tag := "latest" } else r

end reference

/-- Modelled from the spec: `docker.ParseReference` (imported, not under src/), which parses
what follows `//`, adds the default tag and refuses a reference with both a tag and a
digest. -/
def dockerParseReference (refString : String) : Except String reference.Ref :=
  if !HasPrefix refString "//" then
    .error ("docker: image reference " ++ refString ++ " does not start with //")
  else
    match reference.ParseNormalizedNamed ⟨refString.data.drop 2⟩ with
    | .error err => .error err
    | .ok ref =>
      let tagged := reference.TagNameOnly ref
      if tagged.tag ≠ "" && tagged.digest ≠ "" then
        .error "Docker references with both a tag and digest are currently not supported"
      else .ok tagged

/-- Modelled from the spec: the imported packages.  References follow the grammar of the
Reference Normalizer; the query engine is the black-box boolean-query evaluator, a compiled
expression being a function of the tree, and the tree of an object being the object. -/
def pkgs : Packages where
  Named := reference.Ref
  Digest := String
  ImageReference := reference.Ref
  Bytes := Object
  Tree := Object
  JMESPath := Object → Except String Any
  ParseNormalizedNamed := reference.ParseNormalizedNamed
  isNamedTagged := fun r => r.tag ≠ ""
  isCanonical := fun r => r.digest ≠ ""
  DigestOf := fun r => r.digest
  TrimNamed := reference.TrimNamed
  WithDigest := reference.WithDigest
  RefString := reference.Ref.String
  ParseReference := dockerParseReference
  DockerReference := fun r => r
  Marshal := fun v => .ok v
  Unmarshal := fun b => .ok b
  Search := fun q tree => q tree

/-- The packages `pkgs`, except that `json.Marshal` fails with the given message. -/
def pkgsMarshalFails (msg : String) : Packages :=
  { pkgs with Marshal := fun _ => .error msg }

/-- The packages `pkgs`, except that `json.Unmarshal` fails with the given message. -/
def pkgsUnmarshalFails (msg : String) : Packages :=
  { pkgs with Unmarshal := fun _ => .error msg }

/-! # Theorems -/

/-! ## `transform` -/

theorem transform_of_canonical (P : Packages) (s c : String) (mapping : Mapping)
    (hc : canonicalString P s = some c) :
    transform P s mapping =
      match mapping.find? (fun kv => HasPrefix c kv.1) with
      | some (k, v) => (ReplaceAll c k v, none)
      | none => (s, none) := by
  unfold canonicalString at hc
  unfold transform
  rcases hn : imageNamesWithDigestOrTag P s with ⟨n, _ | e⟩
  · rw [hn] at hc
    simp only at hc ⊢
    cases hp : P.ParseReference ("//" ++ n) with
    | error e => rw [hp] at hc; simp at hc
    | ok ref =>
      rw [hp] at hc
      simp only [Option.some.injEq] at hc
      simp only [hc]
  · rw [hn] at hc; simp at hc

theorem find_first_match (c : String) (pre post : Mapping) (k v : String)
    (hpre : ∀ kv ∈ pre, HasPrefix c kv.1 = false) (hk : HasPrefix c k = true) :
    (pre ++ (k, v) :: post).find? (fun kv => HasPrefix c kv.1) = some (k, v) := by
  induction pre with
  | nil => simp [List.find?, hk]
  | cons a pre ih =>
    have ha : HasPrefix c a.1 = false := hpre a (List.mem_cons_self _ _)
    have := ih (fun kv h => hpre kv (List.mem_cons_of_mem _ h))
    simp [List.find?, ha, this]

theorem find_no_match (c : String) (mapping : Mapping)
    (h : ∀ kv ∈ mapping, HasPrefix c kv.1 = false) :
    mapping.find? (fun kv => HasPrefix c kv.1) = none := by
  rw [List.find?_eq_none]
  intro kv hkv
  simp [h kv hkv]

/-- C1 (amended): among the entries whose key is a string-prefix of the canonical reference,
`transform` uses the one that the `range` over the map visits first, whatever the order in
which the entries were configured. -/
theorem transform_first_visited (P : Packages) (s c : String) (pre post : Mapping)
    (k v : String) (hc : canonicalString P s = some c)
    (hpre : ∀ kv ∈ pre, HasPrefix c kv.1 = false) (hk : HasPrefix c k = true) :
    transform P s (pre ++ (k, v) :: post) = (ReplaceAll c k v, none) := by
  rw [transform_of_canonical P s c _ hc, find_first_match c pre post k v hpre hk]

theorem transform_first_visited_witness :
    canonicalString pkgs "a.io/x:latest" = some "a.io/x:latest" ∧
    (∀ kv ∈ [("quay.io/", "q.io/")], HasPrefix "a.io/x:latest" kv.1 = false) ∧
    HasPrefix "a.io/x:latest" "a.io/" = true ∧
    transform pkgs "a.io/x:latest"
        ([("quay.io/", "q.io/")] ++ ("a.io/", "b.io/") :: [("a.io/x", "c.io/")]) =
      (ReplaceAll "a.io/x:latest" "a.io/" "b.io/", none) :=
  ⟨by decide, by decide, by decide,
    transform_first_visited pkgs "a.io/x:latest" "a.io/x:latest" [("quay.io/", "q.io/")]
      [("a.io/x", "c.io/")] "a.io/" "b.io/" (by decide) (by decide) (by decide)⟩

theorem transform_declared_order_counterexample :
    canonicalString pkgs "a.io/x:latest" = some "a.io/x:latest" ∧
    List.Perm [("a.io/x", "c.io/"), ("a.io/", "b.io/")]
      [("a.io/", "b.io/"), ("a.io/x", "c.io/")] ∧
    transform pkgs "a.io/x:latest" [("a.io/", "b.io/"), ("a.io/x", "c.io/")] =
      ("b.io/x:latest", none) ∧
    transform pkgs "a.io/x:latest" [("a.io/x", "c.io/"), ("a.io/", "b.io/")] =
      ("c.io/:latest", none) :=
  ⟨by decide, List.Perm.swap _ _ _, by decide, by decide⟩

/-- C2: at the image `a.io/a.io/x:latest` with the entry `a.io/ -> b.io/`, whose key is a
string-prefix of the canonical reference, `transform` also replaces the later occurrence of
the key; and with the empty key it inserts the value at every position. -/
theorem transform_replaces_every_occurrence :
    canonicalString pkgs "a.io/a.io/x:latest" = some "a.io/a.io/x:latest" ∧
    HasPrefix "a.io/a.io/x:latest" "a.io/" = true ∧
    "b.io/" ++ String.mk ("a.io/a.io/x:latest".data.drop "a.io/".length) =
      "b.io/a.io/x:latest" ∧
    transform pkgs "a.io/a.io/x:latest" [("a.io/", "b.io/")] = ("b.io/b.io/x:latest", none) ∧
    transform pkgs "a.io/x:1" [("", "r/")] = ("r/ar/.r/ir/or//r/xr/:r/1r/", none) :=
  ⟨by decide, by decide, by decide, by decide, by decide⟩

/-- C6 (amended): when no key of the mapping is a string-prefix of the canonical reference of
an image string that parses, `transform` returns the image string it was given, unchanged,
and no error. -/
theorem transform_no_match (P : Packages) (s c : String) (mapping : Mapping)
    (hc : canonicalString P s = some c)
    (hno : ∀ kv ∈ mapping, HasPrefix c kv.1 = false) :
    transform P s mapping = (s, none) := by
  rw [transform_of_canonical P s c _ hc, find_no_match c mapping hno]

theorem transform_no_match_witness :
    canonicalString pkgs "nginx:1.21" = some "docker.io/library/nginx:1.21" ∧
    (∀ kv ∈ [("quay.io/", "mirror.local/")],
      HasPrefix "docker.io/library/nginx:1.21" kv.1 = false) ∧
    transform pkgs "nginx:1.21" [("quay.io/", "mirror.local/")] = ("nginx:1.21", none) :=
  ⟨by decide, by decide,
    transform_no_match pkgs "nginx:1.21" "docker.io/library/nginx:1.21"
      [("quay.io/", "mirror.local/")] (by decide) (by decide)⟩

theorem transform_no_match_counterexample :
    canonicalString pkgs "nginx" = some "docker.io/library/nginx:latest" ∧
    HasPrefix "docker.io/library/nginx:latest" "quay.io/" = false ∧
    transform pkgs "nginx" [("quay.io/", "mirror.local/")] = ("nginx", none) ∧
    transform pkgs "nginx" [] = ("nginx", none) :=
  ⟨by decide, by decide, by decide, by decide⟩

/-! ## The container loops -/

theorem rewritten_of_same (P : Packages) (ρ : RangeOrder) (m : Mapping) (n : Nat)
    (ctr : Container) (h : (transform P ctr.Image (ρ.visit n m)).1 = ctr.Image) :
    rewritten P ρ m n ctr = ctr := by
  cases ctr
  simp only [rewritten] at h ⊢
  rw [h]

theorem changedNames_single (P : Packages) (ρ : RangeOrder) (m : Mapping) (n : Nat)
    (ctr : Container) :
    changedNames [ctr] [rewritten P ρ m n ctr] =
      if (transform P ctr.Image (ρ.visit n m)).1 ≠ ctr.Image then [ctr.Name] else [] := by
  by_cases h : (transform P ctr.Image (ρ.visit n m)).1 = ctr.Image
  · simp [changedNames, rewritten, h]
  · simp [changedNames, rewritten, h]

theorem changedNames_cons (b a : Container) (bs as : List Container) :
    changedNames (b :: bs) (a :: as) = changedNames [b] [a] ++ changedNames bs as := by
  by_cases h : a.Image = b.Image
  · simp [changedNames, List.filter_cons, h]
  · simp [changedNames, List.filter_cons, h]

theorem changedNames_append (bs1 as1 bs2 as2 : List Container)
    (h : bs1.length = as1.length) :
    changedNames (bs1 ++ bs2) (as1 ++ as2) = changedNames bs1 as1 ++ changedNames bs2 as2 := by
  simp [changedNames, List.zip_append h]

theorem rangeContainers_cons_err (P : Packages) (ρ : RangeOrder) (m : Mapping) (n : Nat)
    (mu : List String) (ctr : Container) (rest : List Container) (err : GoError)
    (h : (transform P ctr.Image (ρ.visit n m)).2 = some err) :
    rangeContainers P ρ m n mu (ctr :: rest) = ⟨ctr :: rest, mu, some err⟩ := by
  rcases ht : transform P ctr.Image (ρ.visit n m) with ⟨ret, e⟩
  rw [ht] at h
  simp only at h
  subst h
  simp only [rangeContainers, ht]

theorem rangeContainers_cons_ok (P : Packages) (ρ : RangeOrder) (m : Mapping) (n : Nat)
    (mu : List String) (ctr : Container) (rest : List Container)
    (h : (transform P ctr.Image (ρ.visit n m)).2 = none) :
    rangeContainers P ρ m n mu (ctr :: rest) =
      ⟨rewritten P ρ m n ctr ::
          (rangeContainers P ρ m (n + 1)
            (mu ++ changedNames [ctr] [rewritten P ρ m n ctr]) rest).containers,
        (rangeContainers P ρ m (n + 1)
            (mu ++ changedNames [ctr] [rewritten P ρ m n ctr]) rest).mutated,
        (rangeContainers P ρ m (n + 1)
            (mu ++ changedNames [ctr] [rewritten P ρ m n ctr]) rest).err⟩ := by
  rw [changedNames_single]
  by_cases hsame : (transform P ctr.Image (ρ.visit n m)).1 = ctr.Image
  · rw [rewritten_of_same P ρ m n ctr hsame]
    rcases ht : transform P ctr.Image (ρ.visit n m) with ⟨ret, e⟩
    rw [ht] at h hsame
    simp only at h hsame
    subst h
    simp [rangeContainers, ht, hsame]
  · rcases ht : transform P ctr.Image (ρ.visit n m) with ⟨ret, e⟩
    rw [ht] at h hsame
    simp only at h hsame
    subst h
    simp [rangeContainers, ht, hsame, rewritten]

theorem rangeContainers_length (P : Packages) (ρ : RangeOrder) (m : Mapping)
    (cs : List Container) :
    ∀ (n : Nat) (mu : List String),
      (rangeContainers P ρ m n mu cs).containers.length = cs.length := by
  induction cs with
  | nil => intro n mu; simp [rangeContainers]
  | cons ctr rest ih =>
    intro n mu
    cases h : (transform P ctr.Image (ρ.visit n m)).2 with
    | some err => rw [rangeContainers_cons_err P ρ m n mu ctr rest err h]
    | none =>
      rw [rangeContainers_cons_ok P ρ m n mu ctr rest h]
      simp [ih]

theorem rangeContainers_append (P : Packages) (ρ : RangeOrder) (m : Mapping)
    (cs1 cs2 : List Container) :
    ∀ (n : Nat) (mu : List String),
      rangeContainers P ρ m n mu (cs1 ++ cs2) =
        match (rangeContainers P ρ m n mu cs1).err with
        | some err =>
          ⟨(rangeContainers P ρ m n mu cs1).containers ++ cs2,
            (rangeContainers P ρ m n mu cs1).mutated, some err⟩
        | none =>
          ⟨(rangeContainers P ρ m n mu cs1).containers ++
              (rangeContainers P ρ m (n + cs1.length)
                (rangeContainers P ρ m n mu cs1).mutated cs2).containers,
            (rangeContainers P ρ m (n + cs1.length)
                (rangeContainers P ρ m n mu cs1).mutated cs2).mutated,
            (rangeContainers P ρ m (n + cs1.length)
                (rangeContainers P ρ m n mu cs1).mutated cs2).err⟩ := by
  induction cs1 with
  | nil => intro n mu; simp [rangeContainers]
  | cons ctr rest ih =>
    intro n mu
    cases h : (transform P ctr.Image (ρ.visit n m)).2 with
    | some err =>
      rw [List.cons_append, rangeContainers_cons_err P ρ m n mu ctr (rest ++ cs2) err h,
        rangeContainers_cons_err P ρ m n mu ctr rest err h]
      simp
    | none =>
      rw [List.cons_append, rangeContainers_cons_ok P ρ m n mu ctr (rest ++ cs2) h,
        rangeContainers_cons_ok P ρ m n mu ctr rest h, ih]
      simp only [List.length_cons]
      have hn : n + (rest.length + 1) = n + 1 + rest.length := by omega
      rw [hn]
      cases (rangeContainers P ρ m (n + 1)
        (mu ++ changedNames [ctr] [rewritten P ρ m n ctr]) rest).err <;> simp

theorem allTransformed_cons (P : Packages) (ρ : RangeOrder) (m : Mapping) (n : Nat)
    (ctr : Container) (rest : List Container) :
    allTransformed P ρ m n (ctr :: rest) = true ↔
      (transform P ctr.Image (ρ.visit n m)).2 = none ∧
        allTransformed P ρ m (n + 1) rest = true := by
  simp [allTransformed, List.enumFrom_cons]

theorem rangeContainers_of_allTransformed (P : Packages) (ρ : RangeOrder) (m : Mapping)
    (pre rest : List Container) :
    ∀ (n : Nat) (mu : List String), allTransformed P ρ m n pre = true →
      rangeContainers P ρ m n mu (pre ++ rest) =
        ⟨rewriteAll P ρ m n pre ++
            (rangeContainers P ρ m (n + pre.length)
              (mu ++ changedNames pre (rewriteAll P ρ m n pre)) rest).containers,
          (rangeContainers P ρ m (n + pre.length)
              (mu ++ changedNames pre (rewriteAll P ρ m n pre)) rest).mutated,
          (rangeContainers P ρ m (n + pre.length)
              (mu ++ changedNames pre (rewriteAll P ρ m n pre)) rest).err⟩ := by
  induction pre with
  | nil => intro n mu _; simp [rewriteAll, changedNames]
  | cons ctr pre ih =>
    intro n mu h
    rw [allTransformed_cons] at h
    have hn : n + (pre.length + 1) = n + 1 + pre.length := by omega
    have hr : rewriteAll P ρ m n (ctr :: pre) =
        rewritten P ρ m n ctr :: rewriteAll P ρ m (n + 1) pre := by
      simp [rewriteAll, List.enumFrom_cons]
    rw [List.cons_append, rangeContainers_cons_ok P ρ m n mu ctr (pre ++ rest) h.1,
      ih (n + 1) _ h.2, hr,
      changedNames_cons ctr (rewritten P ρ m n ctr) pre (rewriteAll P ρ m (n + 1) pre),
      List.length_cons, hn, List.append_assoc]
    simp

theorem allTransformed_of_no_error (P : Packages) (ρ : RangeOrder) (m : Mapping)
    (cs : List Container) :
    ∀ (n : Nat) (mu : List String), (rangeContainers P ρ m n mu cs).err = none →
      allTransformed P ρ m n cs = true := by
  induction cs with
  | nil => intro n mu _; simp [allTransformed]
  | cons ctr rest ih =>
    intro n mu h
    cases ht : (transform P ctr.Image (ρ.visit n m)).2 with
    | some err =>
      rw [rangeContainers_cons_err P ρ m n mu ctr rest err ht] at h
      simp at h
    | none =>
      rw [rangeContainers_cons_ok P ρ m n mu ctr rest ht] at h
      rw [allTransformed_cons]
      exact ⟨ht, ih (n + 1) _ h⟩

theorem rangeContainers_no_error (P : Packages) (ρ : RangeOrder) (m : Mapping)
    (cs : List Container) (n : Nat) (mu : List String)
    (h : (rangeContainers P ρ m n mu cs).err = none) :
    (rangeContainers P ρ m n mu cs).containers = rewriteAll P ρ m n cs ∧
      (rangeContainers P ρ m n mu cs).mutated =
        mu ++ changedNames cs (rewriteAll P ρ m n cs) := by
  have hall := allTransformed_of_no_error P ρ m cs n mu h
  have := rangeContainers_of_allTransformed P ρ m cs [] n mu hall
  rw [List.append_nil] at this
  rw [this]
  simp [rangeContainers]

theorem rewriteAll_length (P : Packages) (ρ : RangeOrder) (m : Mapping) (n : Nat)
    (cs : List Container) : (rewriteAll P ρ m n cs).length = cs.length := by
  simp [rewriteAll]

/-! ## The exemption evaluator -/

theorem evaluatesJMESPaths_of_tree (P : Packages) (queries : List (query P)) (v : Object)
    (out : P.Bytes) (tree : P.Tree) (hM : P.Marshal v = .ok out)
    (hU : P.Unmarshal out = .ok tree) :
    evaluatesJMESPaths P queries v = searchQueries P tree queries := by
  simp [evaluatesJMESPaths, hM, hU]

theorem searchQueries_skip_false (P : Packages) (tree : P.Tree) (pre rest : List (query P))
    (hpre : ∀ p ∈ pre, P.Search p.JMESPath tree = .ok (.bool false)) :
    searchQueries P tree (pre ++ rest) = searchQueries P tree rest := by
  induction pre with
  | nil => rfl
  | cons p pre ih =>
    have hp := hpre p (List.mem_cons_self _ _)
    rw [List.cons_append]
    simp only [searchQueries, hp]
    exact ih (fun q hq => hpre q (List.mem_cons_of_mem _ hq))

theorem searchQueries_matched_iff (P : Packages) (tree : P.Tree) (queries : List (query P)) :
    (searchQueries P tree queries).1 = true ↔ (searchQueries P tree queries).2 = none := by
  induction queries with
  | nil => simp [searchQueries]
  | cons q rest ih =>
    simp only [searchQueries]
    cases hs : P.Search q.JMESPath tree with
    | error e => simp
    | ok a =>
      cases a with
      | bool b => cases b <;> simp [ih]
      | other t => simp

/-! ## `Default` -/

theorem ensureAnnotations_annotations (pod : Pod) :
    (ensureAnnotations pod).Annotations = some (annotationsOf pod) := by
  unfold ensureAnnotations annotationsOf
  cases h : pod.Annotations <;> simp [h]

theorem ensureAnnotations_containers (pod : Pod) :
    (ensureAnnotations pod).Containers = pod.Containers ∧
    (ensureAnnotations pod).InitContainers = pod.InitContainers ∧
    (ensureAnnotations pod).EphemeralContainers = pod.EphemeralContainers := by
  unfold ensureAnnotations
  split <;> simp

theorem Default_of_matched (P : Packages) (k : kubeimageswap P) (ρ : RangeOrder) (pod : Pod)
    (h : (evaluatesJMESPaths P k.queries (.pod (ensureAnnotations pod))).1 = true) :
    Default P k ρ (.pod pod) = (.pod (ensureAnnotations pod), none) := by
  simp [Default, h]

theorem Default_of_not_matched (P : Packages) (k : kubeimageswap P) (ρ : RangeOrder)
    (pod : Pod)
    (h : (evaluatesJMESPaths P k.queries (.pod (ensureAnnotations pod))).1 = false) :
    ∃ pod1 : Pod,
      Default P k ρ (.pod pod) =
        (.pod pod1, (rangeContainers P ρ k.mapping 0 [] (allContainers pod)).err) ∧
      allContainers pod1 = (rangeContainers P ρ k.mapping 0 [] (allContainers pod)).containers ∧
      pod1.Containers.length = pod.Containers.length ∧
      pod1.InitContainers.length = pod.InitContainers.length ∧
      pod1.EphemeralContainers.length = pod.EphemeralContainers.length ∧
      pod1.Annotations =
        if (rangeContainers P ρ k.mapping 0 [] (allContainers pod)).err = none ∧
            (rangeContainers P ρ k.mapping 0 [] (allContainers pod)).mutated ≠ [] then
          some (mapAssign (annotationsOf pod) "containers.mutated"
            (Join (rangeContainers P ρ k.mapping 0 [] (allContainers pod)).mutated ","))
        else some (annotationsOf pod) := by
  obtain ⟨hC, hI, hE⟩ := ensureAnnotations_containers pod
  have hA := ensureAnnotations_annotations pod
  have hlen := rangeContainers_length P ρ k.mapping
  unfold allContainers
  rw [rangeContainers_append, rangeContainers_append]
  simp only [Default, h, hC, hI, hE, Nat.zero_add, List.length_append]
  cases hc : (rangeContainers P ρ k.mapping 0 [] pod.Containers).err with
  | some err => exact ⟨_, rfl, by simp [hI, hE], by simp [hlen], by simp [hI], by simp [hE], by simp [hA]⟩
  | none =>
    simp only []
    cases hi : (rangeContainers P ρ k.mapping pod.Containers.length
        (rangeContainers P ρ k.mapping 0 [] pod.Containers).mutated pod.InitContainers).err with
    | some err => exact ⟨_, rfl, by simp [hE], by simp [hlen], by simp [hlen], by simp [hE], by simp [hA]⟩
    | none =>
      simp only []
      cases he : (rangeContainers P ρ k.mapping
          (pod.Containers.length + pod.InitContainers.length)
          (rangeContainers P ρ k.mapping pod.Containers.length
            (rangeContainers P ρ k.mapping 0 [] pod.Containers).mutated
            pod.InitContainers).mutated pod.EphemeralContainers).err with
      | some err => exact ⟨_, rfl, by simp, by simp [hlen], by simp [hlen], by simp [hlen], by simp [hA]⟩
      | none =>
        simp only []
        by_cases hmu : (rangeContainers P ρ k.mapping
            (pod.Containers.length + pod.InitContainers.length)
            (rangeContainers P ρ k.mapping pod.Containers.length
              (rangeContainers P ρ k.mapping 0 [] pod.Containers).mutated
              pod.InitContainers).mutated pod.EphemeralContainers).mutated = []
        · simp only [hmu, List.length_nil, gt_iff_lt, Nat.lt_irrefl, if_false]
          exact ⟨_, rfl, by simp, by simp [hlen], by simp [hlen], by simp [hlen],
            by simp [hA]⟩
        · have hpos := List.length_pos.mpr hmu
          simp only [gt_iff_lt, hpos, if_true]
          exact ⟨_, rfl, by simp, by simp [hlen], by simp [hlen], by simp [hlen],
            by simp [hmu, hA, annotationsOf]⟩

/-! ## Go maps -/

theorem mapIndex_mapAssign_same (m : Mapping) (k v : String) :
    mapIndex (mapAssign m k v) k = some v := by
  simp [mapIndex, mapAssign]

theorem find_filter_of_imp (p q : String × String → Bool) (m : Mapping)
    (h : ∀ e, p e = true → q e = true) : (m.filter q).find? p = m.find? p := by
  induction m with
  | nil => rfl
  | cons e m ih =>
    by_cases hq : q e = true
    · rw [List.filter_cons_of_pos hq, List.find?_cons, List.find?_cons, ih]
    · have hp : p e = false := by
        cases hpe : p e with
        | false => rfl
        | true => exact absurd (h e hpe) hq
      rw [List.filter_cons_of_neg hq, List.find?_cons, hp, ih]

theorem mapIndex_mapAssign_other (m : Mapping) (k v key : String) (h : key ≠ k) :
    mapIndex (mapAssign m k v) key = mapIndex m key := by
  have hk : ¬ k = key := fun e => h e.symm
  have hf := find_filter_of_imp (fun e => decide (e.1 = key)) (fun e => decide (e.1 ≠ k)) m
    (by
      intro e he
      have : e.1 = key := of_decide_eq_true he
      exact decide_eq_true (by rw [this]; exact h))
  simp only [mapIndex, mapAssign, List.find?_cons, hk, decide_False]
  rw [hf]

/-! ## Errors of the container loops -/

theorem transform_error_keeps_input (P : Packages) (s : String) (mapping : Mapping)
    (err : GoError) (h : (transform P s mapping).2 = some err) :
    (transform P s mapping).1 = s := by
  unfold transform at h ⊢
  rcases hn : imageNamesWithDigestOrTag P s with ⟨n, _ | e⟩
  · rw [hn] at h
    simp only at h ⊢
    cases hp : P.ParseReference ("//" ++ n) with
    | error e => rfl
    | ok ref =>
      rw [hp] at h
      simp only at h ⊢
      cases hfind : mapping.find?
          (fun kv => HasPrefix (P.RefString (P.DockerReference ref)) kv.1) with
      | none => rfl
      | some kv => rw [hfind] at h; simp at h
  · rfl

theorem rangeContainers_error_source (P : Packages) (ρ : RangeOrder) (m : Mapping)
    (cs : List Container) (err : GoError) :
    ∀ (n : Nat) (mu : List String), (rangeContainers P ρ m n mu cs).err = some err →
      ∃ ic ∈ cs.enumFrom n, (transform P ic.2.Image (ρ.visit ic.1 m)).2 = some err := by
  induction cs with
  | nil => intro n mu h; simp [rangeContainers] at h
  | cons ctr rest ih =>
    intro n mu h
    cases ht : (transform P ctr.Image (ρ.visit n m)).2 with
    | some e =>
      rw [rangeContainers_cons_err P ρ m n mu ctr rest e ht] at h
      simp only [Option.some.injEq] at h
      subst h
      exact ⟨(n, ctr), by simp [List.enumFrom_cons], ht⟩
    | none =>
      rw [rangeContainers_cons_ok P ρ m n mu ctr rest ht] at h
      obtain ⟨ic, hic, hx⟩ := ih (n + 1) _ h
      exact ⟨ic, by simp [List.enumFrom_cons, hic], hx⟩

theorem rangeContainers_congr (P : Packages) (ρ σ : RangeOrder) (m : Mapping)
    (h : ∀ n, ρ.visit n m = σ.visit n m) (cs : List Container) :
    ∀ (n : Nat) (mu : List String),
      rangeContainers P ρ m n mu cs = rangeContainers P σ m n mu cs := by
  induction cs with
  | nil => intro n mu; rfl
  | cons ctr rest ih =>
    intro n mu
    simp only [rangeContainers, h n, ih]

theorem Default_congr (P : Packages) (k : kubeimageswap P) (ρ σ : RangeOrder)
    (h : ∀ n, ρ.visit n k.mapping = σ.visit n k.mapping) (obj : Object) :
    Default P k ρ obj = Default P k σ obj := by
  cases obj with
  | other t => rfl
  | pod pod => simp only [Default, rangeContainers_congr P ρ σ k.mapping h]

theorem visit_singleton (ρ : RangeOrder) (n : Nat) (e : String × String) :
    ρ.visit n [e] = [e] :=
  List.perm_singleton.mp (ρ.perm n [e])

/-! ## The claims about `Default` and `evaluatesJMESPaths` -/

/-- C3: when the exemption evaluator returns matched = true, `Default` returns success and
mutates nothing: the regular, init and ephemeral containers are the lists it was given
(images that do not parse included) and the annotation map has the entries it had, a nil map
having become the empty map. -/
theorem Default_exempted_unchanged (P : Packages) (k : kubeimageswap P) (ρ : RangeOrder)
    (pod : Pod)
    (h : (evaluatesJMESPaths P k.queries (.pod (ensureAnnotations pod))).1 = true) :
    ∃ pod1 : Pod,
      Default P k ρ (.pod pod) = (.pod pod1, none) ∧
      pod1.Containers = pod.Containers ∧
      pod1.InitContainers = pod.InitContainers ∧
      pod1.EphemeralContainers = pod.EphemeralContainers ∧
      pod1.Annotations = some (annotationsOf pod) ∧
      ∀ key, mapIndex (annotationsOf pod1) key = mapIndex (annotationsOf pod) key := by
  obtain ⟨hC, hI, hE⟩ := ensureAnnotations_containers pod
  have hA := ensureAnnotations_annotations pod
  refine ⟨ensureAnnotations pod, Default_of_matched P k ρ pod h, hC, hI, hE, hA, ?_⟩
  intro key
  simp [annotationsOf, hA]

theorem Default_exempted_unchanged_witness :
    (evaluatesJMESPaths pkgs [⟨"contains(keys(metadata.labels), 'skip')", fun _ => .ok (.bool true)⟩]
      (.pod (ensureAnnotations
        ⟨none, [⟨"web", "docker.io/library/nginx:1.21"⟩], [⟨"init", "not a reference"⟩],
          []⟩))).1 = true ∧
    ∃ pod1 : Pod,
      Default pkgs
          ⟨[⟨"contains(keys(metadata.labels), 'skip')", fun _ => .ok (.bool true)⟩],
            [("docker.io/library/", "internal.registry/")]⟩
          RangeOrder.asListed
          (.pod ⟨none, [⟨"web", "docker.io/library/nginx:1.21"⟩],
            [⟨"init", "not a reference"⟩], []⟩) = (.pod pod1, none) ∧
      pod1.Containers = [⟨"web", "docker.io/library/nginx:1.21"⟩] ∧
      pod1.InitContainers = [⟨"init", "not a reference"⟩] ∧
      pod1.EphemeralContainers = [] ∧
      pod1.Annotations = some (annotationsOf
        ⟨none, [⟨"web", "docker.io/library/nginx:1.21"⟩], [⟨"init", "not a reference"⟩],
          []⟩) ∧
      ∀ key, mapIndex (annotationsOf pod1) key = mapIndex (annotationsOf
        ⟨none, [⟨"web", "docker.io/library/nginx:1.21"⟩], [⟨"init", "not a reference"⟩],
          []⟩) key :=
  ⟨by decide,
    Default_exempted_unchanged pkgs
      ⟨[⟨"contains(keys(metadata.labels), 'skip')", fun _ => .ok (.bool true)⟩],
        [("docker.io/library/", "internal.registry/")]⟩
      RangeOrder.asListed
      ⟨none, [⟨"web", "docker.io/library/nginx:1.21"⟩], [⟨"init", "not a reference"⟩], []⟩
      (by decide)⟩

/-- C4: when `Default` is not exempted and returns success with at least one container
changed, the annotation `containers.mutated` is the comma-joined list of the names of exactly
the containers whose image differs from the image before the call, in the order regular,
init, ephemeral and in declaration order within each group; every other annotation key keeps
its value. -/
theorem Default_annotation_lists_changed (P : Packages) (k : kubeimageswap P)
    (ρ : RangeOrder) (pod pod1 : Pod)
    (hne : (evaluatesJMESPaths P k.queries (.pod (ensureAnnotations pod))).1 = false)
    (hok : Default P k ρ (.pod pod) = (.pod pod1, none))
    (hch : changedNames (allContainers pod) (allContainers pod1) ≠ []) :
    pod1.Containers.length = pod.Containers.length ∧
    pod1.InitContainers.length = pod.InitContainers.length ∧
    pod1.EphemeralContainers.length = pod.EphemeralContainers.length ∧
    mapIndex (annotationsOf pod1) "containers.mutated" =
      some (Join (changedNames (allContainers pod) (allContainers pod1)) ",") ∧
    ∀ key, key ≠ "containers.mutated" →
      mapIndex (annotationsOf pod1) key = mapIndex (annotationsOf pod) key := by
  obtain ⟨pod2, hD, hall, hlC, hlI, hlE, hA⟩ := Default_of_not_matched P k ρ pod hne
  rw [hok] at hD
  simp only [Prod.mk.injEq, Object.pod.injEq] at hD
  obtain ⟨hpod, herr⟩ := hD
  subst hpod
  obtain ⟨hcs, hmu⟩ := rangeContainers_no_error P ρ k.mapping (allContainers pod) 0 []
    herr.symm
  rw [List.nil_append, ← hcs, ← hall] at hmu
  rw [hmu] at hA
  simp only [← herr, hch, ne_eq, not_false_eq_true, and_self, if_true] at hA
  refine ⟨hlC, hlI, hlE, ?_, ?_⟩
  · simp only [annotationsOf, hA, Option.getD_some]
    exact mapIndex_mapAssign_same _ _ _
  · intro key hkey
    simp only [annotationsOf, hA, Option.getD_some]
    exact mapIndex_mapAssign_other _ _ _ _ hkey

theorem Default_annotation_lists_changed_witness :
    (evaluatesJMESPaths pkgs ([] : List (query pkgs))
      (.pod (ensureAnnotations
        ⟨some [("owner", "team-a"), ("containers.mutated", "stale")],
          [⟨"web", "nginx"⟩, ⟨"cache", "quay.io/org/redis:7"⟩],
          [⟨"init", "docker.io/library/busybox:1"⟩], [⟨"debug", "alpine:3"⟩]⟩))).1 = false ∧
    Default pkgs ⟨[], [("docker.io/library/", "internal.registry/")]⟩ RangeOrder.asListed
        (.pod ⟨some [("owner", "team-a"), ("containers.mutated", "stale")],
          [⟨"web", "nginx"⟩, ⟨"cache", "quay.io/org/redis:7"⟩],
          [⟨"init", "docker.io/library/busybox:1"⟩], [⟨"debug", "alpine:3"⟩]⟩) =
      (.pod ⟨some [("containers.mutated", "web,init,debug"), ("owner", "team-a")],
        [⟨"web", "internal.registry/nginx:latest"⟩, ⟨"cache", "quay.io/org/redis:7"⟩],
        [⟨"init", "internal.registry/busybox:1"⟩],
        [⟨"debug", "internal.registry/alpine:3"⟩]⟩, none) ∧
    mapIndex (annotationsOf
        ⟨some [("containers.mutated", "web,init,debug"), ("owner", "team-a")],
          [⟨"web", "internal.registry/nginx:latest"⟩, ⟨"cache", "quay.io/org/redis:7"⟩],
          [⟨"init", "internal.registry/busybox:1"⟩],
          [⟨"debug", "internal.registry/alpine:3"⟩]⟩) "containers.mutated" =
      some "web,init,debug" ∧
    mapIndex (annotationsOf
        ⟨some [("containers.mutated", "web,init,debug"), ("owner", "team-a")],
          [⟨"web", "internal.registry/nginx:latest"⟩, ⟨"cache", "quay.io/org/redis:7"⟩],
          [⟨"init", "internal.registry/busybox:1"⟩],
          [⟨"debug", "internal.registry/alpine:3"⟩]⟩) "owner" = some "team-a" :=
  have h := Default_annotation_lists_changed pkgs
    ⟨[], [("docker.io/library/", "internal.registry/")]⟩ RangeOrder.asListed
    ⟨some [("owner", "team-a"), ("containers.mutated", "stale")],
      [⟨"web", "nginx"⟩, ⟨"cache", "quay.io/org/redis:7"⟩],
      [⟨"init", "docker.io/library/busybox:1"⟩], [⟨"debug", "alpine:3"⟩]⟩
    ⟨some [("containers.mutated", "web,init,debug"), ("owner", "team-a")],
      [⟨"web", "internal.registry/nginx:latest"⟩, ⟨"cache", "quay.io/org/redis:7"⟩],
      [⟨"init", "internal.registry/busybox:1"⟩], [⟨"debug", "internal.registry/alpine:3"⟩]⟩
    (by decide) (by decide) (by decide)
  ⟨by decide, by decide, h.2.2.2.1, h.2.2.2.2 "owner" (by decide)⟩

/-- C5 (amended): when `json.Marshal` or `json.Unmarshal` fails inside `evaluatesJMESPaths`,
the evaluator returns matched = true together with the wrapped error, and `Default` treats the
pod as exempted: it returns nil, no error, and leaves the containers and the annotations as
they were (a nil annotation map having become the empty map). -/
theorem Default_serialization_failure (P : Packages) (k : kubeimageswap P) (ρ : RangeOrder)
    (pod : Pod)
    (h : (∃ msg, P.Marshal (.pod (ensureAnnotations pod)) = .error msg) ∨
      (∃ out msg, P.Marshal (.pod (ensureAnnotations pod)) = .ok out ∧
        P.Unmarshal out = .error msg)) :
    (∃ msg, evaluatesJMESPaths P k.queries (.pod (ensureAnnotations pod)) =
      (true, some (.errorf msg))) ∧
    Default P k ρ (.pod pod) = (.pod (ensureAnnotations pod), none) := by
  have hev : ∃ msg, evaluatesJMESPaths P k.queries (.pod (ensureAnnotations pod)) =
      (true, some (.errorf msg)) := by
    rcases h with ⟨msg, hM⟩ | ⟨out, msg, hM, hU⟩
    · exact ⟨"unable to deserialize: " ++ msg, by simp [evaluatesJMESPaths, hM]⟩
    · exact ⟨"unable to serialize: " ++ msg, by simp [evaluatesJMESPaths, hM, hU]⟩
  obtain ⟨msg, hmsg⟩ := hev
  exact ⟨⟨msg, hmsg⟩, Default_of_matched P k ρ pod (by rw [hmsg])⟩

theorem Default_serialization_failure_witness :
    ((∃ msg, (pkgsUnmarshalFails "unexpected end of JSON input").Marshal
        (.pod (ensureAnnotations ⟨none, [⟨"web", "docker.io/library/nginx:1.21"⟩], [], []⟩)) =
          .error msg) ∨
      (∃ out msg, (pkgsUnmarshalFails "unexpected end of JSON input").Marshal
        (.pod (ensureAnnotations ⟨none, [⟨"web", "docker.io/library/nginx:1.21"⟩], [], []⟩)) =
          .ok out ∧
        (pkgsUnmarshalFails "unexpected end of JSON input").Unmarshal out = .error msg)) ∧
    Default (pkgsUnmarshalFails "unexpected end of JSON input")
        ⟨[], [("docker.io/library/", "internal.registry/")]⟩ RangeOrder.asListed
        (.pod ⟨none, [⟨"web", "docker.io/library/nginx:1.21"⟩], [], []⟩) =
      (.pod (ensureAnnotations ⟨none, [⟨"web", "docker.io/library/nginx:1.21"⟩], [], []⟩),
        none) :=
  ⟨Or.inr ⟨_, "unexpected end of JSON input", rfl, rfl⟩,
    (Default_serialization_failure (pkgsUnmarshalFails "unexpected end of JSON input")
      ⟨[], [("docker.io/library/", "internal.registry/")]⟩ RangeOrder.asListed
      ⟨none, [⟨"web", "docker.io/library/nginx:1.21"⟩], [], []⟩
      (Or.inr ⟨_, "unexpected end of JSON input", rfl, rfl⟩)).2⟩

theorem Default_serialization_failure_counterexample :
    (pkgsMarshalFails "json: unsupported value").Marshal
        (.pod (ensureAnnotations ⟨none, [⟨"web", "docker.io/library/nginx:1.21"⟩], [], []⟩)) =
      .error "json: unsupported value" ∧
    evaluatesJMESPaths (pkgsMarshalFails "json: unsupported value") []
        (.pod (ensureAnnotations ⟨none, [⟨"web", "docker.io/library/nginx:1.21"⟩], [], []⟩)) =
      (true, some (.errorf "unable to deserialize: json: unsupported value")) ∧
    Default (pkgsMarshalFails "json: unsupported value")
        ⟨[], [("docker.io/library/", "internal.registry/")]⟩ RangeOrder.asListed
        (.pod ⟨none, [⟨"web", "docker.io/library/nginx:1.21"⟩], [], []⟩) =
      (.pod ⟨some [], [⟨"web", "docker.io/library/nginx:1.21"⟩], [], []⟩, none) :=
  ⟨rfl, by decide, by decide⟩

/-- C7: for a pod that is not exempted, when the first container, in the order regular, init,
ephemeral, whose image `transform` fails on is `c`, `Default` returns that error; every
container before `c` carries its rewritten image, `c` and every container after it keep
their image, the three groups keep their lengths, and the annotations are as they were before
the container loop, so `containers.mutated` is not written. -/
theorem Default_partial_mutation (P : Packages) (k : kubeimageswap P) (ρ : RangeOrder)
    (pod : Pod) (pre post : List Container) (c : Container) (err : GoError)
    (hne : (evaluatesJMESPaths P k.queries (.pod (ensureAnnotations pod))).1 = false)
    (hall : allContainers pod = pre ++ c :: post)
    (hpre : allTransformed P ρ k.mapping 0 pre = true)
    (hc : (transform P c.Image (ρ.visit pre.length k.mapping)).2 = some err) :
    ∃ pod1 : Pod,
      Default P k ρ (.pod pod) = (.pod pod1, some err) ∧
      allContainers pod1 = rewriteAll P ρ k.mapping 0 pre ++ c :: post ∧
      pod1.Containers.length = pod.Containers.length ∧
      pod1.InitContainers.length = pod.InitContainers.length ∧
      pod1.EphemeralContainers.length = pod.EphemeralContainers.length ∧
      pod1.Annotations = some (annotationsOf pod) ∧
      ∀ key, mapIndex (annotationsOf pod1) key = mapIndex (annotationsOf pod) key := by
  obtain ⟨pod1, hD, hcs, hlC, hlI, hlE, hA⟩ := Default_of_not_matched P k ρ pod hne
  have hR := rangeContainers_of_allTransformed P ρ k.mapping pre (c :: post) 0 [] hpre
  rw [Nat.zero_add, rangeContainers_cons_err P ρ k.mapping pre.length _ c post err hc,
    ← hall] at hR
  rw [hR] at hD hcs hA
  simp only [reduceCtorEq, false_and, if_false] at hA
  refine ⟨pod1, hD, hcs, hlC, hlI, hlE, hA, ?_⟩
  intro key
  simp [annotationsOf, hA]

theorem Default_partial_mutation_witness :
    (evaluatesJMESPaths pkgs ([] : List (query pkgs))
      (.pod (ensureAnnotations
        ⟨none, [⟨"a", "nginx"⟩, ⟨"b", "not a reference"⟩, ⟨"c", "redis"⟩], [], []⟩))).1 =
      false ∧
    allTransformed pkgs RangeOrder.asListed [("docker.io/library/", "internal.registry/")] 0
      [⟨"a", "nginx"⟩] = true ∧
    Default pkgs ⟨[], [("docker.io/library/", "internal.registry/")]⟩ RangeOrder.asListed
        (.pod ⟨none, [⟨"a", "nginx"⟩, ⟨"b", "not a reference"⟩, ⟨"c", "redis"⟩], [], []⟩) =
      (.pod ⟨some [], [⟨"a", "internal.registry/nginx:latest"⟩, ⟨"b", "not a reference"⟩,
          ⟨"c", "redis"⟩], [], []⟩,
        some (.pkg "invalid reference format")) ∧
    ∃ pod1 : Pod,
      Default pkgs ⟨[], [("docker.io/library/", "internal.registry/")]⟩ RangeOrder.asListed
          (.pod ⟨none, [⟨"a", "nginx"⟩, ⟨"b", "not a reference"⟩, ⟨"c", "redis"⟩], [], []⟩) =
        (.pod pod1, some (.pkg "invalid reference format")) ∧
      allContainers pod1 =
        rewriteAll pkgs RangeOrder.asListed [("docker.io/library/", "internal.registry/")] 0
          [⟨"a", "nginx"⟩] ++ ⟨"b", "not a reference"⟩ :: [⟨"c", "redis"⟩] ∧
      pod1.Containers.length = 3 ∧
      pod1.InitContainers.length = 0 ∧
      pod1.EphemeralContainers.length = 0 ∧
      pod1.Annotations = some [] ∧
      ∀ key, mapIndex (annotationsOf pod1) key = mapIndex [] key :=
  ⟨by decide, by decide, by decide,
    Default_partial_mutation pkgs ⟨[], [("docker.io/library/", "internal.registry/")]⟩
      RangeOrder.asListed
      ⟨none, [⟨"a", "nginx"⟩, ⟨"b", "not a reference"⟩, ⟨"c", "redis"⟩], [], []⟩
      [⟨"a", "nginx"⟩] [⟨"c", "redis"⟩] ⟨"b", "not a reference"⟩
      (.pkg "invalid reference format")
      (by decide) (by decide) (by decide) (by decide)⟩

/-- C8: for a workload that serializes and a rule list in which a rule evaluates to boolean
true and every rule before it evaluates to boolean false, `evaluatesJMESPaths` returns
`(true, nil)`, whatever the rules after it are. -/
theorem evaluatesJMESPaths_first_true (P : Packages) (v : Object) (out : P.Bytes)
    (tree : P.Tree) (pre post : List (query P)) (q : query P)
    (hM : P.Marshal v = .ok out) (hU : P.Unmarshal out = .ok tree)
    (hpre : ∀ p ∈ pre, P.Search p.JMESPath tree = .ok (.bool false))
    (hq : P.Search q.JMESPath tree = .ok (.bool true)) :
    evaluatesJMESPaths P (pre ++ q :: post) v = (true, none) := by
  rw [evaluatesJMESPaths_of_tree P _ v out tree hM hU,
    searchQueries_skip_false P tree pre (q :: post) hpre]
  simp [searchQueries, hq]

theorem evaluatesJMESPaths_first_true_witness :
    pkgs.Marshal (.pod ⟨none, [⟨"web", "nginx"⟩], [], []⟩) =
      .ok (.pod ⟨none, [⟨"web", "nginx"⟩], [], []⟩) ∧
    pkgs.Search (fun _ => .ok (.bool false)) (.pod ⟨none, [⟨"web", "nginx"⟩], [], []⟩) =
      .ok (.bool false) ∧
    pkgs.Search (fun _ => .ok (.bool true)) (.pod ⟨none, [⟨"web", "nginx"⟩], [], []⟩) =
      .ok (.bool true) ∧
    evaluatesJMESPaths pkgs
      ([⟨"metadata.namespace == 'kube-system'", fun _ => .ok (.bool false)⟩] ++
        ⟨"contains(keys(metadata.labels), 'skip')", fun _ => .ok (.bool true)⟩ ::
        [⟨"spec.containers[0].name", fun _ => .ok (.other "string")⟩,
          ⟨"abs(metadata.name)", fun _ => .error "invalid type"⟩])
      (.pod ⟨none, [⟨"web", "nginx"⟩], [], []⟩) = (true, none) :=
  ⟨rfl, rfl, rfl,
    evaluatesJMESPaths_first_true pkgs (.pod ⟨none, [⟨"web", "nginx"⟩], [], []⟩)
      (.pod ⟨none, [⟨"web", "nginx"⟩], [], []⟩) (.pod ⟨none, [⟨"web", "nginx"⟩], [], []⟩)
      [⟨"metadata.namespace == 'kube-system'", fun _ => .ok (.bool false)⟩]
      [⟨"spec.containers[0].name", fun _ => .ok (.other "string")⟩,
        ⟨"abs(metadata.name)", fun _ => .error "invalid type"⟩]
      ⟨"contains(keys(metadata.labels), 'skip')", fun _ => .ok (.bool true)⟩
      rfl rfl (by intro p hp; simp at hp; subst hp; rfl) rfl⟩

theorem not_matched_of_error (P : Packages) (queries : List (query P)) (v : Object)
    (out : P.Bytes) (tree : P.Tree) (err : GoError) (hM : P.Marshal v = .ok out)
    (hU : P.Unmarshal out = .ok tree) (he : (evaluatesJMESPaths P queries v).2 = some err) :
    (evaluatesJMESPaths P queries v).1 = false := by
  rw [evaluatesJMESPaths_of_tree P queries v out tree hM hU] at he ⊢
  cases h1 : (searchQueries P tree queries).1 with
  | false => rfl
  | true =>
    rw [(searchQueries_matched_iff P tree queries).mp h1] at he
    simp at he

theorem not_matched_of_no_rules (P : Packages) (v : Object) (out : P.Bytes) (tree : P.Tree)
    (hM : P.Marshal v = .ok out) (hU : P.Unmarshal out = .ok tree) :
    evaluatesJMESPaths P [] v = (false, some .errNotNegative) := by
  rw [evaluatesJMESPaths_of_tree P [] v out tree hM hU]
  rfl

theorem Default_error_source (P : Packages) (k : kubeimageswap P) (ρ : RangeOrder) (pod : Pod)
    (hne : (evaluatesJMESPaths P k.queries (.pod (ensureAnnotations pod))).1 = false)
    (e : GoError) (he : (Default P k ρ (.pod pod)).2 = some e) :
    ∃ ic ∈ (allContainers pod).enumFrom 0,
      transform P ic.2.Image (ρ.visit ic.1 k.mapping) = (ic.2.Image, some e) := by
  obtain ⟨pod1, hD, -⟩ := Default_of_not_matched P k ρ pod hne
  rw [hD] at he
  obtain ⟨ic, hic, hx⟩ := rangeContainers_error_source P ρ k.mapping (allContainers pod) e 0 []
    he
  exact ⟨ic, hic, Prod.ext (transform_error_keeps_input P _ _ e hx) hx⟩

theorem Default_of_same_verdict (P : Packages) (k1 k2 : kubeimageswap P) (ρ : RangeOrder)
    (pod : Pod) (hm : k1.mapping = k2.mapping)
    (h : (evaluatesJMESPaths P k1.queries (.pod (ensureAnnotations pod))).1 =
      (evaluatesJMESPaths P k2.queries (.pod (ensureAnnotations pod))).1) :
    Default P k1 ρ (.pod pod) = Default P k2 ρ (.pod pod) := by
  simp only [Default, h, hm]

/-- C9: for a pod that serializes, when the evaluator ends with an error (a predicate that is
not a boolean, a query that fails to evaluate, or the sentinel of no rule having matched),
`Default` leaves the same pod and returns the same value as with the empty rule list; and an
error that `Default` returns is the error `transform` returned for one of the containers,
not the error of the evaluator. -/
theorem Default_evaluation_error_ignored (P : Packages) (queries : List (query P))
    (mapping : Mapping) (ρ : RangeOrder) (pod : Pod) (out : P.Bytes) (tree : P.Tree)
    (err : GoError)
    (hM : P.Marshal (.pod (ensureAnnotations pod)) = .ok out)
    (hU : P.Unmarshal out = .ok tree)
    (he : (evaluatesJMESPaths P queries (.pod (ensureAnnotations pod))).2 = some err) :
    Default P ⟨queries, mapping⟩ ρ (.pod pod) = Default P ⟨[], mapping⟩ ρ (.pod pod) ∧
    ∀ e, (Default P ⟨queries, mapping⟩ ρ (.pod pod)).2 = some e →
      ∃ ic ∈ (allContainers pod).enumFrom 0,
        transform P ic.2.Image (ρ.visit ic.1 mapping) = (ic.2.Image, some e) := by
  have h1 := not_matched_of_error P queries _ out tree err hM hU he
  have h2 := not_matched_of_no_rules P _ out tree hM hU
  refine ⟨Default_of_same_verdict P ⟨queries, mapping⟩ ⟨[], mapping⟩ ρ pod rfl ?_, ?_⟩
  · simp only [h1, h2]
  · intro e hE
    exact Default_error_source P ⟨queries, mapping⟩ ρ pod h1 e hE

theorem Default_evaluation_error_ignored_witness :
    (evaluatesJMESPaths pkgs
        [⟨"metadata.namespace == 'kube-system'", fun _ => .ok (.bool false)⟩,
          ⟨"spec.containers[0].name", fun _ => .ok (.other "string")⟩]
        (.pod (ensureAnnotations
          ⟨none, [⟨"web", "docker.io/library/nginx:1.21"⟩], [⟨"init", "not a reference"⟩],
            []⟩))).2 = some .errNotBoolValue ∧
    Default pkgs
        ⟨[⟨"metadata.namespace == 'kube-system'", fun _ => .ok (.bool false)⟩,
            ⟨"spec.containers[0].name", fun _ => .ok (.other "string")⟩],
          [("docker.io/library/", "internal.registry/")]⟩
        RangeOrder.asListed
        (.pod ⟨none, [⟨"web", "docker.io/library/nginx:1.21"⟩],
          [⟨"init", "not a reference"⟩], []⟩) =
      Default pkgs ⟨[], [("docker.io/library/", "internal.registry/")]⟩ RangeOrder.asListed
        (.pod ⟨none, [⟨"web", "docker.io/library/nginx:1.21"⟩],
          [⟨"init", "not a reference"⟩], []⟩) ∧
    (Default pkgs ⟨[], [("docker.io/library/", "internal.registry/")]⟩ RangeOrder.asListed
        (.pod ⟨none, [⟨"web", "docker.io/library/nginx:1.21"⟩],
          [⟨"init", "not a reference"⟩], []⟩)).2 =
      some (.pkg "invalid reference format") :=
  ⟨by decide,
    (Default_evaluation_error_ignored pkgs
      [⟨"metadata.namespace == 'kube-system'", fun _ => .ok (.bool false)⟩,
        ⟨"spec.containers[0].name", fun _ => .ok (.other "string")⟩]
      [("docker.io/library/", "internal.registry/")] RangeOrder.asListed
      ⟨none, [⟨"web", "docker.io/library/nginx:1.21"⟩], [⟨"init", "not a reference"⟩], []⟩
      _ _ .errNotBoolValue rfl rfl (by decide)).1,
    by decide⟩

/-- C10 (amended): for the pod with the single regular container `web` of image
`docker.io/library/nginx:1.21`, the mapping `docker.io/library/ -> internal.registry/` and no
rule, `Default` returns success, the image becomes `internal.registry/nginx:1.21` and the
annotation `containers.mutated` is `web`; and for every pod that serializes, the empty rule
list does not exempt: the evaluator returns `(false, errNotNegative)` and `Default` runs the
container loops, so every container carries its rewritten image when `transform` fails on
none of them. -/
theorem Default_no_rules (ρ : RangeOrder) (P : Packages) (mapping : Mapping) (pod : Pod)
    (out : P.Bytes) (tree : P.Tree)
    (hM : P.Marshal (.pod (ensureAnnotations pod)) = .ok out)
    (hU : P.Unmarshal out = .ok tree) :
    Default pkgs ⟨[], [("docker.io/library/", "internal.registry/")]⟩ ρ
        (.pod ⟨none, [⟨"web", "docker.io/library/nginx:1.21"⟩], [], []⟩) =
      (.pod ⟨some [("containers.mutated", "web")],
        [⟨"web", "internal.registry/nginx:1.21"⟩], [], []⟩, none) ∧
    evaluatesJMESPaths P [] (.pod (ensureAnnotations pod)) = (false, some .errNotNegative) ∧
    ∃ pod1 : Pod,
      Default P ⟨[], mapping⟩ ρ (.pod pod) =
        (.pod pod1, (rangeContainers P ρ mapping 0 [] (allContainers pod)).err) ∧
      allContainers pod1 = (rangeContainers P ρ mapping 0 [] (allContainers pod)).containers ∧
      (allTransformed P ρ mapping 0 (allContainers pod) = true →
        Default P ⟨[], mapping⟩ ρ (.pod pod) = (.pod pod1, none) ∧
        allContainers pod1 = rewriteAll P ρ mapping 0 (allContainers pod)) := by
  have h2 := not_matched_of_no_rules P _ out tree hM hU
  refine ⟨?_, h2, ?_⟩
  · rw [Default_congr pkgs ⟨[], [("docker.io/library/", "internal.registry/")]⟩ ρ
      RangeOrder.asListed (fun n => visit_singleton ρ n _)]
    decide
  · obtain ⟨pod1, hD, hcs, -⟩ := Default_of_not_matched P ⟨[], mapping⟩ ρ pod
      (by simp only [h2])
    refine ⟨pod1, hD, hcs, ?_⟩
    intro hall
    have hR := rangeContainers_of_allTransformed P ρ mapping (allContainers pod) [] 0 [] hall
    rw [List.append_nil] at hR
    have hR' : (⟨[], mapping⟩ : kubeimageswap P).mapping = mapping := rfl
    rw [hR'] at hD hcs
    rw [hR] at hD hcs
    simp only [rangeContainers, List.append_nil] at hD hcs
    exact ⟨hD, hcs⟩

theorem Default_no_rules_witness :
    pkgs.Marshal (.pod (ensureAnnotations
        ⟨none, [⟨"web", "nginx"⟩], [⟨"init", "quay.io/org/tool:2"⟩], []⟩)) =
      .ok (.pod ⟨some [], [⟨"web", "nginx"⟩], [⟨"init", "quay.io/org/tool:2"⟩], []⟩) ∧
    evaluatesJMESPaths pkgs []
        (.pod (ensureAnnotations
          ⟨none, [⟨"web", "nginx"⟩], [⟨"init", "quay.io/org/tool:2"⟩], []⟩)) =
      (false, some .errNotNegative) ∧
    Default pkgs ⟨[], [("docker.io/library/", "internal.registry/")]⟩ RangeOrder.backwards
        (.pod ⟨none, [⟨"web", "docker.io/library/nginx:1.21"⟩], [], []⟩) =
      (.pod ⟨some [("containers.mutated", "web")],
        [⟨"web", "internal.registry/nginx:1.21"⟩], [], []⟩, none) :=
  have h := Default_no_rules RangeOrder.backwards pkgs
    [("docker.io/library/", "internal.registry/")]
    ⟨none, [⟨"web", "nginx"⟩], [⟨"init", "quay.io/org/tool:2"⟩], []⟩
    (.pod ⟨some [], [⟨"web", "nginx"⟩], [⟨"init", "quay.io/org/tool:2"⟩], []⟩)
    (.pod ⟨some [], [⟨"web", "nginx"⟩], [⟨"init", "quay.io/org/tool:2"⟩], []⟩) rfl rfl
  ⟨rfl, h.2.1, h.1⟩

theorem Default_no_rules_counterexample :
    evaluatesJMESPaths (pkgsMarshalFails "json: error calling MarshalJSON") []
        (.pod (ensureAnnotations
          ⟨none, [⟨"web", "docker.io/library/nginx:1.21"⟩],
            [⟨"init", "docker.io/library/busybox:1"⟩], []⟩)) =
      (true, some (.errorf "unable to deserialize: json: error calling MarshalJSON")) ∧
    transform (pkgsMarshalFails "json: error calling MarshalJSON")
        "docker.io/library/nginx:1.21" [("docker.io/library/", "internal.registry/")] =
      ("internal.registry/nginx:1.21", none) ∧
    Default (pkgsMarshalFails "json: error calling MarshalJSON")
        ⟨[], [("docker.io/library/", "internal.registry/")]⟩ RangeOrder.asListed
        (.pod ⟨none, [⟨"web", "docker.io/library/nginx:1.21"⟩],
          [⟨"init", "docker.io/library/busybox:1"⟩], []⟩) =
      (.pod ⟨some [], [⟨"web", "docker.io/library/nginx:1.21"⟩],
        [⟨"init", "docker.io/library/busybox:1"⟩], []⟩, none) :=
  ⟨by decide, by decide, by decide⟩

/-! ## The claims about the evaluator's errors -/

/-- C12: for a workload that serializes and a rule list in which a rule evaluates to a value
that is not a boolean and every rule before it evaluates to boolean false,
`evaluatesJMESPaths` returns `(false, errNotBoolValue)`, whatever the rules after it are, a
rule that evaluates to true included. -/
theorem evaluatesJMESPaths_not_bool (P : Packages) (v : Object) (out : P.Bytes)
    (tree : P.Tree) (pre post : List (query P)) (q : query P) (goType : String)
    (hM : P.Marshal v = .ok out) (hU : P.Unmarshal out = .ok tree)
    (hpre : ∀ p ∈ pre, P.Search p.JMESPath tree = .ok (.bool false))
    (hq : P.Search q.JMESPath tree = .ok (.other goType)) :
    evaluatesJMESPaths P (pre ++ q :: post) v = (false, some .errNotBoolValue) := by
  rw [evaluatesJMESPaths_of_tree P _ v out tree hM hU,
    searchQueries_skip_false P tree pre (q :: post) hpre]
  simp [searchQueries, hq]

theorem evaluatesJMESPaths_not_bool_witness :
    pkgs.Marshal (.pod ⟨none, [⟨"web", "nginx"⟩], [], []⟩) =
      .ok (.pod ⟨none, [⟨"web", "nginx"⟩], [], []⟩) ∧
    pkgs.Search (fun _ => .ok (.other "string")) (.pod ⟨none, [⟨"web", "nginx"⟩], [], []⟩) =
      .ok (.other "string") ∧
    evaluatesJMESPaths pkgs
      ([⟨"metadata.namespace == 'kube-system'", fun _ => .ok (.bool false)⟩] ++
        ⟨"spec.containers[0].name", fun _ => .ok (.other "string")⟩ ::
        [⟨"contains(keys(metadata.labels), 'skip')", fun _ => .ok (.bool true)⟩])
      (.pod ⟨none, [⟨"web", "nginx"⟩], [], []⟩) = (false, some .errNotBoolValue) :=
  ⟨rfl, rfl,
    evaluatesJMESPaths_not_bool pkgs (.pod ⟨none, [⟨"web", "nginx"⟩], [], []⟩)
      (.pod ⟨none, [⟨"web", "nginx"⟩], [], []⟩) (.pod ⟨none, [⟨"web", "nginx"⟩], [], []⟩)
      [⟨"metadata.namespace == 'kube-system'", fun _ => .ok (.bool false)⟩]
      [⟨"contains(keys(metadata.labels), 'skip')", fun _ => .ok (.bool true)⟩]
      ⟨"spec.containers[0].name", fun _ => .ok (.other "string")⟩ "string"
      rfl rfl (by intro p hp; simp at hp; subst hp; rfl) rfl⟩

theorem searchQueries_all_false (P : Packages) (tree : P.Tree) (queries : List (query P))
    (h : ∀ q ∈ queries, P.Search q.JMESPath tree = .ok (.bool false)) :
    searchQueries P tree queries = (false, some .errNotNegative) := by
  have := searchQueries_skip_false P tree queries [] h
  rw [List.append_nil] at this
  rw [this]
  rfl

theorem searchQueries_never_false_nil (P : Packages) (tree : P.Tree)
    (queries : List (query P)) : searchQueries P tree queries ≠ (false, none) := by
  intro h
  have h2 : (searchQueries P tree queries).2 = none := by rw [h]
  have h1 := (searchQueries_matched_iff P tree queries).mpr h2
  rw [h] at h1
  exact Bool.false_ne_true h1

/-- C13: for a workload that serializes and a rule list all of whose rules evaluate to
boolean false, the empty list included, `evaluatesJMESPaths` returns false together with the
sentinel `errNotNegative`, which is neither nil, nor the error of a predicate that is not a
boolean, nor an error of a query that fails to evaluate; and no rule list makes it return
`(false, nil)`. -/
theorem evaluatesJMESPaths_all_false (P : Packages) (v : Object) (out : P.Bytes)
    (tree : P.Tree) (queries : List (query P))
    (hM : P.Marshal v = .ok out) (hU : P.Unmarshal out = .ok tree)
    (h : ∀ q ∈ queries, P.Search q.JMESPath tree = .ok (.bool false)) :
    evaluatesJMESPaths P queries v = (false, some .errNotNegative) ∧
    evaluatesJMESPaths P [] v = (false, some .errNotNegative) ∧
    GoError.errNotNegative ≠ GoError.errNotBoolValue ∧
    (∀ msg, GoError.errNotNegative ≠ GoError.errorf msg) ∧
    ∀ others : List (query P), evaluatesJMESPaths P others v ≠ (false, none) := by
  refine ⟨?_, ?_, by decide, fun msg => by simp, ?_⟩
  · rw [evaluatesJMESPaths_of_tree P _ v out tree hM hU]
    exact searchQueries_all_false P tree queries h
  · rw [evaluatesJMESPaths_of_tree P _ v out tree hM hU]
    rfl
  · intro others
    rw [evaluatesJMESPaths_of_tree P _ v out tree hM hU]
    exact searchQueries_never_false_nil P tree others

theorem evaluatesJMESPaths_all_false_witness :
    pkgs.Marshal (.pod ⟨none, [⟨"web", "nginx"⟩], [], []⟩) =
      .ok (.pod ⟨none, [⟨"web", "nginx"⟩], [], []⟩) ∧
    evaluatesJMESPaths pkgs
      [⟨"metadata.namespace == 'kube-system'", fun _ => .ok (.bool false)⟩,
        ⟨"contains(keys(metadata.labels), 'skip')", fun _ => .ok (.bool false)⟩]
      (.pod ⟨none, [⟨"web", "nginx"⟩], [], []⟩) = (false, some .errNotNegative) :=
  ⟨rfl,
    (evaluatesJMESPaths_all_false pkgs (.pod ⟨none, [⟨"web", "nginx"⟩], [], []⟩)
      (.pod ⟨none, [⟨"web", "nginx"⟩], [], []⟩) (.pod ⟨none, [⟨"web", "nginx"⟩], [], []⟩)
      [⟨"metadata.namespace == 'kube-system'", fun _ => .ok (.bool false)⟩,
        ⟨"contains(keys(metadata.labels), 'skip')", fun _ => .ok (.bool false)⟩]
      rfl rfl (by intro q hq; simp at hq; rcases hq with rfl | rfl <;> rfl)).1⟩

/-! ## The annotation when nothing changed -/

/-- C14 (amended): when `Default` returns success and no container image changed, the call
does not write the annotations: every key, `containers.mutated` included, has the value it
had before the call, so `containers.mutated` is absent afterwards when it was absent
before. -/
theorem Default_nothing_changed (P : Packages) (k : kubeimageswap P) (ρ : RangeOrder)
    (pod pod1 : Pod)
    (hok : Default P k ρ (.pod pod) = (.pod pod1, none))
    (hch : changedNames (allContainers pod) (allContainers pod1) = []) :
    pod1.Annotations = some (annotationsOf pod) ∧
    (∀ key, mapIndex (annotationsOf pod1) key = mapIndex (annotationsOf pod) key) ∧
    (mapIndex (annotationsOf pod) "containers.mutated" = none →
      mapIndex (annotationsOf pod1) "containers.mutated" = none) := by
  have hA : pod1.Annotations = some (annotationsOf pod) := by
    cases hm : (evaluatesJMESPaths P k.queries (.pod (ensureAnnotations pod))).1 with
    | true =>
      rw [Default_of_matched P k ρ pod hm] at hok
      simp only [Prod.mk.injEq, Object.pod.injEq, and_true] at hok
      rw [← hok]
      exact ensureAnnotations_annotations pod
    | false =>
      obtain ⟨pod2, hD, hall, -, -, -, hA⟩ := Default_of_not_matched P k ρ pod hm
      rw [hok] at hD
      simp only [Prod.mk.injEq, Object.pod.injEq] at hD
      obtain ⟨hpod, herr⟩ := hD
      subst hpod
      obtain ⟨hcs, hmu⟩ := rangeContainers_no_error P ρ k.mapping (allContainers pod) 0 []
        herr.symm
      rw [List.nil_append, ← hcs, ← hall, hch] at hmu
      rw [hmu] at hA
      simpa using hA
  have hget : annotationsOf pod1 = annotationsOf pod := by
    simp [annotationsOf, hA]
  refine ⟨hA, fun key => by rw [hget], fun h => by rw [hget]; exact h⟩

theorem Default_nothing_changed_witness :
    Default pkgs ⟨[], [("docker.io/library/", "internal.registry/")]⟩ RangeOrder.asListed
        (.pod ⟨none, [⟨"web", "quay.io/org/app:1"⟩], [], []⟩) =
      (.pod ⟨some [], [⟨"web", "quay.io/org/app:1"⟩], [], []⟩, none) ∧
    changedNames (allContainers ⟨none, [⟨"web", "quay.io/org/app:1"⟩], [], []⟩)
      (allContainers ⟨some [], [⟨"web", "quay.io/org/app:1"⟩], [], []⟩) = [] ∧
    mapIndex (annotationsOf ⟨some [], [⟨"web", "quay.io/org/app:1"⟩], [], []⟩)
      "containers.mutated" = none :=
  ⟨by decide, by decide,
    (Default_nothing_changed pkgs ⟨[], [("docker.io/library/", "internal.registry/")]⟩
      RangeOrder.asListed ⟨none, [⟨"web", "quay.io/org/app:1"⟩], [], []⟩
      ⟨some [], [⟨"web", "quay.io/org/app:1"⟩], [], []⟩ (by decide) (by decide)).2.2
      (by decide)⟩

theorem Default_nothing_changed_counterexample :
    Default pkgs ⟨[], [("docker.io/library/", "internal.registry/")]⟩ RangeOrder.asListed
        (.pod ⟨some [("containers.mutated", "web")],
          [⟨"web", "internal.registry/nginx:1.21"⟩], [], []⟩) =
      (.pod ⟨some [("containers.mutated", "web")],
        [⟨"web", "internal.registry/nginx:1.21"⟩], [], []⟩, none) ∧
    changedNames
      (allContainers ⟨some [("containers.mutated", "web")],
        [⟨"web", "internal.registry/nginx:1.21"⟩], [], []⟩)
      (allContainers ⟨some [("containers.mutated", "web")],
        [⟨"web", "internal.registry/nginx:1.21"⟩], [], []⟩) = [] ∧
    mapIndex (annotationsOf ⟨some [("containers.mutated", "web")],
      [⟨"web", "internal.registry/nginx:1.21"⟩], [], []⟩) "containers.mutated" =
      some "web" :=
  ⟨by decide, by decide, by decide⟩

/-! ## The order of iteration and the errors of `transform` -/

theorem find_eq_of_perm_of_unique (p : String × String → Bool) (m1 m2 : Mapping)
    (hperm : m1.Perm m2)
    (huniq : ∀ x ∈ m1, ∀ y ∈ m1, p x = true → p y = true → x = y) :
    m1.find? p = m2.find? p := by
  cases h1 : m1.find? p with
  | none =>
    rw [List.find?_eq_none] at h1
    symm
    rw [List.find?_eq_none]
    intro x hx
    exact h1 x (hperm.mem_iff.mpr hx)
  | some x =>
    have hx1 : x ∈ m1 := List.mem_of_find?_eq_some h1
    have hpx : p x = true := List.find?_some h1
    cases h2 : m2.find? p with
    | none =>
      rw [List.find?_eq_none] at h2
      exact absurd hpx (h2 x (hperm.mem_iff.mp hx1))
    | some y =>
      have hy2 : y ∈ m2 := List.mem_of_find?_eq_some h2
      have hpy : p y = true := List.find?_some h2
      rw [huniq x hx1 y (hperm.mem_iff.mpr hy2) hpx hpy]

theorem transform_error_iff (P : Packages) (s : String) (mapping : Mapping) :
    (transform P s mapping).2 ≠ none ↔ canonicalString P s = none := by
  unfold transform canonicalString
  rcases imageNamesWithDigestOrTag P s with ⟨n, _ | e⟩
  · simp only
    cases P.ParseReference ("//" ++ n) with
    | error e => simp
    | ok ref =>
      simp only
      cases mapping.find? (fun kv => HasPrefix (P.RefString (P.DockerReference ref)) kv.1) with
      | none => simp
      | some kv => simp
  · simp

theorem transform_of_no_canonical (P : Packages) (s : String) (m1 m2 : Mapping)
    (h : canonicalString P s = none) : transform P s m1 = transform P s m2 := by
  unfold transform canonicalString at *
  rcases hn : imageNamesWithDigestOrTag P s with ⟨n, _ | e⟩
  · rw [hn] at h
    simp only at h ⊢
    cases hp : P.ParseReference ("//" ++ n) with
    | error e => rfl
    | ok ref => rw [hp] at h; simp at h
  · rfl

/-- C17: for an image string and a mapping (a Go map, its keys distinct) in which at most one
key is a string-prefix of the canonical reference, `transform` returns the same result for
every iteration order of the mapping; and for the image `a.io/x:latest` and the mapping
`a.io/ -> b.io/`, `a.io/x -> c.io/`, both of whose keys are prefixes of the canonical
reference, the two iteration orders give different results. -/
theorem transform_order_independent (P : Packages) (s : String) (m1 m2 : Mapping)
    (hperm : m1.Perm m2) (hkeys : (m1.map Prod.fst).Nodup)
    (hone : ∀ c, canonicalString P s = some c →
      ∀ x ∈ m1, ∀ y ∈ m1, HasPrefix c x.1 = true → HasPrefix c y.1 = true → x.1 = y.1) :
    transform P s m1 = transform P s m2 ∧
    (HasPrefix "a.io/x:latest" "a.io/" = true ∧ HasPrefix "a.io/x:latest" "a.io/x" = true ∧
      canonicalString pkgs "a.io/x:latest" = some "a.io/x:latest" ∧
      List.Perm [("a.io/", "b.io/"), ("a.io/x", "c.io/")]
        [("a.io/x", "c.io/"), ("a.io/", "b.io/")] ∧
      transform pkgs "a.io/x:latest" [("a.io/", "b.io/"), ("a.io/x", "c.io/")] ≠
        transform pkgs "a.io/x:latest" [("a.io/x", "c.io/"), ("a.io/", "b.io/")]) := by
  refine ⟨?_, by decide, by decide, by decide, List.Perm.swap _ _ _, by decide⟩
  cases hc : canonicalString P s with
  | none => exact transform_of_no_canonical P s m1 m2 hc
  | some c =>
    rw [transform_of_canonical P s c m1 hc, transform_of_canonical P s c m2 hc,
      find_eq_of_perm_of_unique (fun kv => HasPrefix c kv.1) m1 m2 hperm]
    intro x hx y hy hpx hpy
    exact List.inj_on_of_nodup_map hkeys hx hy (hone c hc x hx y hy hpx hpy)

theorem transform_order_independent_witness :
    List.Perm [("quay.io/", "q.local/"), ("docker.io/library/", "internal.registry/")]
      [("docker.io/library/", "internal.registry/"), ("quay.io/", "q.local/")] ∧
    ([("quay.io/", "q.local/"), ("docker.io/library/", "internal.registry/")].map
      Prod.fst).Nodup ∧
    canonicalString pkgs "nginx" = some "docker.io/library/nginx:latest" ∧
    transform pkgs "nginx"
        [("quay.io/", "q.local/"), ("docker.io/library/", "internal.registry/")] =
      transform pkgs "nginx"
        [("docker.io/library/", "internal.registry/"), ("quay.io/", "q.local/")] :=
  ⟨List.Perm.swap _ _ _, by decide, by decide,
    (transform_order_independent pkgs "nginx"
      [("quay.io/", "q.local/"), ("docker.io/library/", "internal.registry/")]
      [("docker.io/library/", "internal.registry/"), ("quay.io/", "q.local/")]
      (List.Perm.swap _ _ _) (by decide)
      (by
        intro c hc x hx y hy hpx hpy
        have hc2 : canonicalString pkgs "nginx" = some "docker.io/library/nginx:latest" := by
          decide
        rw [hc2] at hc
        simp only [Option.some.injEq] at hc
        subst hc
        simp only [List.mem_cons, List.mem_singleton, List.not_mem_nil, or_false] at hx hy
        rcases hx with rfl | rfl <;> rcases hy with rfl | rfl <;>
          first | rfl | (exfalso; revert hpx hpy; decide))).1⟩

/-- C18: whenever `transform` returns an error, the string it returns is its input `s`; it
returns an error exactly when `imageNamesWithDigestOrTag` fails on `s` or
`docker.ParseReference` fails on the normalized name, and whether it does is the same for
every mapping, the empty one included. -/
theorem transform_error_behaviour (P : Packages) (s : String) (mapping : Mapping) :
    (∀ err, (transform P s mapping).2 = some err → (transform P s mapping).1 = s) ∧
    ((transform P s mapping).2 ≠ none ↔
      ((imageNamesWithDigestOrTag P s).2 ≠ none ∨
        ∃ msg, P.ParseReference ("//" ++ (imageNamesWithDigestOrTag P s).1) = .error msg)) ∧
    (transform P s mapping).2 = (transform P s []).2 ∧
    ∀ other : Mapping, (transform P s mapping).2 = (transform P s other).2 := by
  have hind : ∀ m1 m2 : Mapping, (transform P s m1).2 = (transform P s m2).2 := by
    intro m1 m2
    cases hc : canonicalString P s with
    | none => rw [transform_of_no_canonical P s m1 m2 hc]
    | some c =>
      have h1 : ¬ (transform P s m1).2 ≠ none := by
        rw [transform_error_iff]; simp [hc]
      have h2 : ¬ (transform P s m2).2 ≠ none := by
        rw [transform_error_iff]; simp [hc]
      rw [not_not.mp h1, not_not.mp h2]
  refine ⟨fun err h => transform_error_keeps_input P s mapping err h, ?_, hind mapping [],
    fun other => hind mapping other⟩
  unfold transform
  rcases imageNamesWithDigestOrTag P s with ⟨n, _ | e⟩
  · simp only
    cases P.ParseReference ("//" ++ n) with
    | error e => simp
    | ok ref =>
      simp only
      cases mapping.find? (fun kv => HasPrefix (P.RefString (P.DockerReference ref)) kv.1) with
      | none => simp
      | some kv => simp
  · simp

/-! ## What `Default` leaves untouched -/

theorem changedNames_self (cs : List Container) : changedNames cs cs = [] := by
  induction cs with
  | nil => rfl
  | cons c cs ih =>
    rw [changedNames_cons, ih]
    simp [changedNames]

theorem rewritten_name (P : Packages) (ρ : RangeOrder) (m : Mapping) (n : Nat)
    (c : Container) : (rewritten P ρ m n c).Name = c.Name := rfl

theorem rangeContainers_names (P : Packages) (ρ : RangeOrder) (m : Mapping)
    (cs : List Container) :
    ∀ (n : Nat) (mu : List String),
      (rangeContainers P ρ m n mu cs).containers.map Container.Name =
        cs.map Container.Name := by
  induction cs with
  | nil => intro n mu; simp [rangeContainers]
  | cons ctr rest ih =>
    intro n mu
    cases h : (transform P ctr.Image (ρ.visit n m)).2 with
    | some err => rw [rangeContainers_cons_err P ρ m n mu ctr rest err h]
    | none =>
      rw [rangeContainers_cons_ok P ρ m n mu ctr rest h]
      simp [ih, rewritten_name]

theorem transform_unmatched (P : Packages) (ρ : RangeOrder) (m : Mapping) (s c : String)
    (hc : canonicalString P s = some c) (hno : ∀ kv ∈ m, HasPrefix c kv.1 = false)
    (n : Nat) : transform P s (ρ.visit n m) = (s, none) := by
  rw [transform_of_canonical P s c _ hc, find_no_match c (ρ.visit n m)]
  intro kv hkv
  exact hno kv ((ρ.perm n m).mem_iff.mp hkv)

theorem rangeContainers_keeps (P : Packages) (ρ : RangeOrder) (m : Mapping)
    (pre post : List Container) (c : Container)
    (h : ∀ n, transform P c.Image (ρ.visit n m) = (c.Image, none)) (n : Nat)
    (mu : List String) :
    ∃ pre1 post1, (rangeContainers P ρ m n mu (pre ++ c :: post)).containers =
        pre1 ++ c :: post1 ∧ pre1.length = pre.length ∧ post1.length = post.length := by
  rw [rangeContainers_append]
  cases (rangeContainers P ρ m n mu pre).err with
  | some err =>
    exact ⟨_, post, rfl, rangeContainers_length P ρ m pre n mu, rfl⟩
  | none =>
    simp only
    have h2 : (transform P c.Image (ρ.visit (n + pre.length) m)).2 = none := by rw [h]
    have h1 : (transform P c.Image (ρ.visit (n + pre.length) m)).1 = c.Image := by rw [h]
    rw [rangeContainers_cons_ok P ρ m _ _ c post h2, rewritten_of_same P ρ m _ c h1]
    exact ⟨_, _, rfl, rangeContainers_length P ρ m pre n mu,
      rangeContainers_length P ρ m post _ _⟩

theorem Default_shape (P : Packages) (k : kubeimageswap P) (ρ : RangeOrder) (pod : Pod) :
    ∃ pod1 : Pod,
      (Default P k ρ (.pod pod)).1 = .pod pod1 ∧
      pod1.Containers.length = pod.Containers.length ∧
      pod1.InitContainers.length = pod.InitContainers.length ∧
      pod1.EphemeralContainers.length = pod.EphemeralContainers.length ∧
      (allContainers pod1 = allContainers pod ∨
        allContainers pod1 =
          (rangeContainers P ρ k.mapping 0 [] (allContainers pod)).containers) := by
  cases hm : (evaluatesJMESPaths P k.queries (.pod (ensureAnnotations pod))).1 with
  | true =>
    obtain ⟨hC, hI, hE⟩ := ensureAnnotations_containers pod
    refine ⟨ensureAnnotations pod, by rw [Default_of_matched P k ρ pod hm], by rw [hC],
      by rw [hI], by rw [hE], Or.inl ?_⟩
    simp [allContainers, hC, hI, hE]
  | false =>
    obtain ⟨pod1, hD, hall, hlC, hlI, hlE, -⟩ := Default_of_not_matched P k ρ pod hm
    exact ⟨pod1, by rw [hD], hlC, hlI, hlE, Or.inr hall⟩

theorem Default_success_annotations (P : Packages) (k : kubeimageswap P) (ρ : RangeOrder)
    (pod pod1 : Pod) (hok : Default P k ρ (.pod pod) = (.pod pod1, none))
    (hch : changedNames (allContainers pod) (allContainers pod1) ≠ []) :
    pod1.Annotations = some (mapAssign (annotationsOf pod) "containers.mutated"
      (Join (changedNames (allContainers pod) (allContainers pod1)) ",")) := by
  cases hm : (evaluatesJMESPaths P k.queries (.pod (ensureAnnotations pod))).1 with
  | true =>
    exfalso
    rw [Default_of_matched P k ρ pod hm] at hok
    simp only [Prod.mk.injEq, Object.pod.injEq, and_true] at hok
    obtain ⟨hC, hI, hE⟩ := ensureAnnotations_containers pod
    apply hch
    rw [← hok]
    simp only [allContainers, hC, hI, hE]
    exact changedNames_self _
  | false =>
    obtain ⟨pod2, hD, hall, -, -, -, hA⟩ := Default_of_not_matched P k ρ pod hm
    rw [hok] at hD
    simp only [Prod.mk.injEq, Object.pod.injEq] at hD
    obtain ⟨hpod, herr⟩ := hD
    subst hpod
    obtain ⟨hcs, hmu⟩ := rangeContainers_no_error P ρ k.mapping (allContainers pod) 0 []
      herr.symm
    rw [List.nil_append, ← hcs, ← hall] at hmu
    rw [hmu] at hA
    simpa [← herr, hch] using hA

theorem Default_annotations_kept (P : Packages) (k : kubeimageswap P) (ρ : RangeOrder)
    (pod pod1 : Pod) (hD : (Default P k ρ (.pod pod)).1 = .pod pod1)
    (h : (Default P k ρ (.pod pod)).2 ≠ none ∨
      changedNames (allContainers pod) (allContainers pod1) = []) :
    pod1.Annotations = some (annotationsOf pod) := by
  cases hm : (evaluatesJMESPaths P k.queries (.pod (ensureAnnotations pod))).1 with
  | true =>
    rw [Default_of_matched P k ρ pod hm] at hD
    simp only [Object.pod.injEq] at hD
    rw [← hD]
    exact ensureAnnotations_annotations pod
  | false =>
    obtain ⟨pod2, hD2, hall, -, -, -, hA⟩ := Default_of_not_matched P k ρ pod hm
    rw [hD2] at hD h
    simp only [Object.pod.injEq] at hD
    subst hD
    cases herr : (rangeContainers P ρ k.mapping 0 [] (allContainers pod)).err with
    | some err =>
      rw [herr] at hA
      simpa using hA
    | none =>
      rw [herr] at h
      rcases h with h | h
      · exact absurd rfl h
      · obtain ⟨hcs, hmu⟩ := rangeContainers_no_error P ρ k.mapping (allContainers pod) 0 []
          herr
        rw [List.nil_append, ← hcs, ← hall, h] at hmu
        rw [hmu] at hA
        simpa using hA

theorem names_of_append (a b c a1 b1 c1 : List Container)
    (h : (a1 ++ b1 ++ c1).map Container.Name = (a ++ b ++ c).map Container.Name)
    (ha : a1.length = a.length) (hb : b1.length = b.length) :
    a1.map Container.Name = a.map Container.Name ∧
    b1.map Container.Name = b.map Container.Name ∧
    c1.map Container.Name = c.map Container.Name := by
  simp only [List.map_append, List.append_assoc] at h
  obtain ⟨h1, h2⟩ := List.append_inj h (by simp [ha])
  obtain ⟨h3, h4⟩ := List.append_inj h2 (by simp [hb])
  exact ⟨h1, h3, h4⟩

/-- C16 (amended): `Default` changes nothing but image strings and the annotation map. On
every path, the regular, the init and the ephemeral containers after the call have the names
they had before, in the same number and order; and a container whose canonical reference has
no key of the mapping as a string-prefix is left as it was and is not added to
`containers.mutated` by the call: it contributes no name to the list of changed containers,
which is what the call writes when it succeeds with a change, and on every other path the
annotations keep the entries they had, a name listed before the call included. -/
theorem Default_frame (P : Packages) (k : kubeimageswap P) (ρ : RangeOrder) (pod : Pod) :
    ∃ pod1 : Pod,
      (Default P k ρ (.pod pod)).1 = .pod pod1 ∧
      pod1.Containers.map Container.Name = pod.Containers.map Container.Name ∧
      pod1.InitContainers.map Container.Name = pod.InitContainers.map Container.Name ∧
      pod1.EphemeralContainers.map Container.Name =
        pod.EphemeralContainers.map Container.Name ∧
      ∀ (pre post : List Container) (c : Container) (cs : String),
        allContainers pod = pre ++ c :: post →
        canonicalString P c.Image = some cs →
        (∀ kv ∈ k.mapping, HasPrefix cs kv.1 = false) →
        ∃ pre1 post1 : List Container,
          allContainers pod1 = pre1 ++ c :: post1 ∧
          pre1.length = pre.length ∧ post1.length = post.length ∧
          changedNames (allContainers pod) (allContainers pod1) =
            changedNames pre pre1 ++ changedNames post post1 ∧
          ((Default P k ρ (.pod pod)).2 = none →
            changedNames pre pre1 ++ changedNames post post1 ≠ [] →
            mapIndex (annotationsOf pod1) "containers.mutated" =
              some (Join (changedNames pre pre1 ++ changedNames post post1) ",")) ∧
          ((Default P k ρ (.pod pod)).2 ≠ none ∨
              changedNames pre pre1 ++ changedNames post post1 = [] →
            pod1.Annotations = some (annotationsOf pod) ∧
            ∀ key, mapIndex (annotationsOf pod1) key = mapIndex (annotationsOf pod) key) := by
  obtain ⟨pod1, hD, hlC, hlI, hlE, hall⟩ := Default_shape P k ρ pod
  have hnames : (allContainers pod1).map Container.Name =
      (allContainers pod).map Container.Name := by
    rcases hall with h | h
    · rw [h]
    · rw [h, rangeContainers_names]
  obtain ⟨hnC, hnI, hnE⟩ := names_of_append _ _ _ _ _ _ hnames hlC hlI
  refine ⟨pod1, hD, hnC, hnI, hnE, ?_⟩
  intro pre post c cs hsplit hc hno
  have hkeep : ∃ pre1 post1, allContainers pod1 = pre1 ++ c :: post1 ∧
      pre1.length = pre.length ∧ post1.length = post.length := by
    rcases hall with h | h
    · exact ⟨pre, post, by rw [h, hsplit], rfl, rfl⟩
    · rw [h, hsplit]
      exact rangeContainers_keeps P ρ k.mapping pre post c
        (fun n => transform_unmatched P ρ k.mapping c.Image cs hc hno n) 0 []
  obtain ⟨pre1, post1, h1, hl1, hl2⟩ := hkeep
  have hcn : changedNames (allContainers pod) (allContainers pod1) =
      changedNames pre pre1 ++ changedNames post post1 := by
    rw [hsplit, h1, changedNames_append pre pre1 _ _ hl1.symm, changedNames_cons,
      changedNames_self [c], List.nil_append]
  refine ⟨pre1, post1, h1, hl1, hl2, hcn, ?_, ?_⟩
  · intro hsucc hne
    have hok : Default P k ρ (.pod pod) = (.pod pod1, none) := Prod.ext hD hsucc
    have hA := Default_success_annotations P k ρ pod pod1 hok (by rw [hcn]; exact hne)
    rw [hcn] at hA
    simp only [annotationsOf, hA, Option.getD_some]
    exact mapIndex_mapAssign_same _ _ _
  · intro hcase
    have hA := Default_annotations_kept P k ρ pod pod1 hD (by rw [hcn]; exact hcase)
    refine ⟨hA, fun key => ?_⟩
    simp [annotationsOf, hA]

theorem Default_frame_counterexample :
    allContainers ⟨some [("containers.mutated", "app")], [⟨"app", "quay.io/org/app:1"⟩], [],
      []⟩ = [] ++ ⟨"app", "quay.io/org/app:1"⟩ :: [] ∧
    canonicalString pkgs "quay.io/org/app:1" = some "quay.io/org/app:1" ∧
    HasPrefix "quay.io/org/app:1" "docker.io/library/" = false ∧
    Default pkgs ⟨[], [("docker.io/library/", "internal.registry/")]⟩ RangeOrder.asListed
        (.pod ⟨some [("containers.mutated", "app")], [⟨"app", "quay.io/org/app:1"⟩], [],
          []⟩) =
      (.pod ⟨some [("containers.mutated", "app")], [⟨"app", "quay.io/org/app:1"⟩], [], []⟩,
        none) ∧
    mapIndex (annotationsOf ⟨some [("containers.mutated", "app")],
      [⟨"app", "quay.io/org/app:1"⟩], [], []⟩) "containers.mutated" = some "app" :=
  ⟨by decide, by decide, by decide, by decide, by decide⟩

/-! ## Lists of characters -/

theorem splitOnP_mem_of_mem (p : Char → Bool) (l : List Char) (c : Char) (hc : c ∈ l) :
    p c = true ∨ ∃ run ∈ l.splitOnP p, c ∈ run := by
  induction l with
  | nil => simp at hc
  | cons x xs ih =>
    rw [List.splitOnP_cons]
    obtain ⟨h, t, hs⟩ := List.exists_cons_of_ne_nil (List.splitOnP_ne_nil p xs)
    rw [hs] at ih ⊢
    by_cases hx : p x = true
    · simp only [hx, if_true]
      rcases List.mem_cons.mp hc with rfl | hmem
      · exact Or.inl hx
      · rcases ih hmem with h1 | ⟨run, hrun, hcr⟩
        · exact Or.inl h1
        · exact Or.inr ⟨run, List.mem_cons_of_mem _ hrun, hcr⟩
    · simp only [hx, if_false, List.modifyHead_cons]
      rcases List.mem_cons.mp hc with rfl | hmem
      · exact Or.inr ⟨c :: h, List.mem_cons_self _ _, List.mem_cons_self _ _⟩
      · rcases ih hmem with h1 | ⟨run, hrun, hcr⟩
        · exact Or.inl h1
        · rcases List.mem_cons.mp hrun with rfl | hrt
          · exact Or.inr ⟨x :: run, List.mem_cons_self _ _, List.mem_cons_of_mem _ hcr⟩
          · exact Or.inr ⟨run, List.mem_cons_of_mem _ hrt, hcr⟩

theorem splitOnP_run_subset (p : Char → Bool) (l : List Char) :
    ∀ run ∈ l.splitOnP p, ∀ c ∈ run, p c = false ∧ c ∈ l := by
  induction l with
  | nil => intro run hrun c hc; simp at hrun; subst hrun; simp at hc
  | cons x xs ih =>
    intro run hrun c hc
    rw [List.splitOnP_cons] at hrun
    obtain ⟨h, t, hs⟩ := List.exists_cons_of_ne_nil (List.splitOnP_ne_nil p xs)
    rw [hs] at ih hrun
    by_cases hx : p x = true
    · simp only [hx, if_true] at hrun
      rcases List.mem_cons.mp hrun with rfl | hr
      · simp at hc
      · obtain ⟨h1, h2⟩ := ih run hr c hc
        exact ⟨h1, List.mem_cons_of_mem _ h2⟩
    · simp only [hx, if_false, List.modifyHead_cons] at hrun
      rcases List.mem_cons.mp hrun with rfl | hr
      · rcases List.mem_cons.mp hc with rfl | hch
        · exact ⟨by simpa using hx, List.mem_cons_self _ _⟩
        · obtain ⟨h1, h2⟩ := ih h (List.mem_cons_self _ _) c hch
          exact ⟨h1, List.mem_cons_of_mem _ h2⟩
      · obtain ⟨h1, h2⟩ := ih run (List.mem_cons_of_mem _ hr) c hc
        exact ⟨h1, List.mem_cons_of_mem _ h2⟩

theorem splitOnP_length_of_mem (p : Char → Bool) (l : List Char) (c : Char) (hc : c ∈ l)
    (hp : p c = true) : 2 ≤ (l.splitOnP p).length := by
  induction l with
  | nil => simp at hc
  | cons x xs ih =>
    rw [List.splitOnP_cons]
    have hne := List.splitOnP_ne_nil p xs
    by_cases hx : p x = true
    · simp only [hx, if_true, List.length_cons]
      have := List.length_pos.mpr hne
      omega
    · rcases List.mem_cons.mp hc with rfl | hmem
      · exact absurd hp hx
      · rw [if_neg hx, List.length_modifyHead]
        exact ih hmem

theorem intercalate_cons_cons (sep a b : List Char) (t : List (List Char)) :
    List.intercalate sep (a :: b :: t) = a ++ sep ++ List.intercalate sep (b :: t) := by
  simp [List.intercalate, List.intersperse]

theorem intercalate_single (sep a : List Char) : List.intercalate sep [a] = a := by
  simp [List.intercalate]

theorem mem_intercalate (N : List (List Char)) (c : Char)
    (hc : c ∈ List.intercalate ['/'] N) : c = '/' ∨ ∃ x ∈ N, c ∈ x := by
  induction N with
  | nil => simp [List.intercalate] at hc
  | cons a t ih =>
    cases t with
    | nil =>
      rw [intercalate_single] at hc
      exact Or.inr ⟨a, List.mem_cons_self _ _, hc⟩
    | cons b t =>
      rw [intercalate_cons_cons] at hc
      simp only [List.mem_append, List.mem_singleton] at hc
      rcases hc with (h | h) | h
      · exact Or.inr ⟨a, List.mem_cons_self _ _, h⟩
      · exact Or.inl h
      · rcases ih h with h1 | ⟨x, hx, hcx⟩
        · exact Or.inl h1
        · exact Or.inr ⟨x, List.mem_cons_of_mem _ hx, hcx⟩

theorem slash_mem_intercalate (a b : List Char) (t : List (List Char)) :
    '/' ∈ List.intercalate ['/'] (a :: b :: t) := by
  rw [intercalate_cons_cons]
  simp

theorem splitOnP_slash_intercalate (N : List (List Char)) (hN : N ≠ [])
    (h : ∀ x ∈ N, '/' ∉ x) :
    (List.intercalate ['/'] N).splitOnP (fun c => decide (c = '/')) = N := by
  have := List.splitOn_intercalate N '/' h hN
  rw [List.splitOn] at this
  exact this

/-! ## The character classes of the reference grammar -/

namespace reference

theorem isLowerAlnum_not_upper (c : Char) (h : isLowerAlnum c = true) : c.isUpper = false := by
  simp only [isLowerAlnum, Char.isLower, Char.isDigit, Char.isUpper, Bool.or_eq_true,
    Bool.and_eq_true, decide_eq_true_eq, Bool.and_eq_false_imp, decide_eq_false_iff_not,
    ge_iff_le, UInt32.le_def, BitVec.le_def] at h ⊢
  have e65 : (UInt32.toBitVec 65).toNat = 65 := rfl
  have e90 : (UInt32.toBitVec 90).toNat = 90 := rfl
  have e97 : (UInt32.toBitVec 97).toNat = 97 := rfl
  have e122 : (UInt32.toBitVec 122).toNat = 122 := rfl
  have e48 : (UInt32.toBitVec 48).toNat = 48 := rfl
  have e57 : (UInt32.toBitVec 57).toNat = 57 := rfl
  rw [e65, e90]
  rw [e97, e122, e48, e57] at h
  omega

theorem isSeparator_mem (run : List Char) (h : isSeparator run = true) (c : Char)
    (hc : c ∈ run) : c = '.' ∨ c = '_' ∨ c = '-' := by
  simp only [isSeparator, Bool.or_eq_true, decide_eq_true_eq, List.all_eq_true] at h
  rcases h with ((h | h) | h) | h
  · subst h; simp at hc; exact Or.inl hc
  · subst h; simp at hc; exact Or.inr (Or.inl hc)
  · subst h; simp at hc; exact Or.inr (Or.inl hc)
  · exact Or.inr (Or.inr (h c hc))

theorem isNameComponent_mem (cs : List Char) (h : isNameComponent cs = true) (c : Char)
    (hc : c ∈ cs) : isLowerAlnum c = true ∨ c = '.' ∨ c = '_' ∨ c = '-' := by
  simp only [isNameComponent, Bool.and_eq_true, List.all_eq_true] at h
  rcases splitOnP_mem_of_mem isLowerAlnum cs c hc with h1 | ⟨run, hrun, hcr⟩
  · exact Or.inl h1
  · exact Or.inr (isSeparator_mem run (h.2 run hrun) c hcr)

theorem isNameComponent_no_slash (cs : List Char) (h : isNameComponent cs = true) :
    '/' ∉ cs := by
  intro hc
  rcases isNameComponent_mem cs h '/' hc with h1 | h1 | h1 | h1 <;> revert h1 <;> decide

theorem isNameComponent_no_colon (cs : List Char) (h : isNameComponent cs = true) :
    ':' ∉ cs := by
  intro hc
  rcases isNameComponent_mem cs h ':' hc with h1 | h1 | h1 | h1 <;> revert h1 <;> decide

theorem isNameComponent_not_upper (cs : List Char) (h : isNameComponent cs = true) (c : Char)
    (hc : c ∈ cs) : c.isUpper = false := by
  rcases isNameComponent_mem cs h c hc with h1 | h1 | h1 | h1
  · exact isLowerAlnum_not_upper c h1
  · subst h1; decide
  · subst h1; decide
  · subst h1; decide

theorem isDigestFormat_no_slash (cs : List Char) (h : isDigestFormat cs = true) :
    '/' ∉ cs := by
  intro hc
  simp only [isDigestFormat, List.span_eq_take_drop, Bool.and_eq_true, List.all_eq_true,
    decide_eq_true_eq] at h
  obtain ⟨⟨⟨hparts, hhead⟩, -⟩, hhex⟩ := h
  rw [← List.takeWhile_append_dropWhile (fun c => decide (c ≠ ':')) cs] at hc
  rcases List.mem_append.mp hc with h1 | h1
  · rcases splitOnP_mem_of_mem
        (fun c => decide (c = '-') || decide (c = '_') || decide (c = '+') || decide (c = '.'))
        _ '/' h1 with h2 | ⟨part, hpart, hcp⟩
    · simp at h2
    · have := (hparts part hpart).2 '/' hcp
      revert this; decide
  · cases hd : List.dropWhile (fun c => decide (c ≠ ':')) cs with
    | nil => rw [hd] at h1; simp at h1
    | cons x t =>
      rw [hd] at h1 hhead hhex
      simp only [List.head?_cons, Option.some.injEq] at hhead
      subst hhead
      simp only [List.tail_cons] at hhex
      rcases List.mem_cons.mp h1 with h2 | h2
      · revert h2; decide
      · have := hhex '/' h2
        revert this; decide

theorem isDigest_algorithm (cs : List Char) (h : isDigest cs = true) :
    ∀ c ∈ cs.takeWhile (fun c => decide (c ≠ ':')), c.isUpper = false := by
  simp only [isDigest, List.span_eq_take_drop, Bool.and_eq_true, Bool.or_eq_true,
    decide_eq_true_eq] at h
  obtain ⟨-, h⟩ := h
  intro c hc
  rcases h with (h | h) | h <;> (rw [h.1] at hc; revert c; decide)

end reference

namespace reference

theorem splitDockerDomain_out (name : List Char) :
    '/' ∉ (splitDockerDomain name).1 ∧
    ((splitDockerDomain name).1.any (fun c => c = '.' || c = ':') = true ∨
      (splitDockerDomain name).1 = "localhost".data) ∧
    (splitDockerDomain name).1 ≠ "index.docker.io".data ∧
    ((splitDockerDomain name).1 = "docker.io".data →
      (splitDockerDomain name).2.any (fun c => c = '/') = true) := by
  have hdock1 : '/' ∉ "docker.io".data := by decide
  have hdock2 : "docker.io".data.any (fun c => c = '.' || c = ':') = true := by decide
  have hdock3 : "docker.io".data ≠ "index.docker.io".data := by decide
  have hlib : ∀ l : List Char, ("library/".data ++ l).any (fun c => c = '/') = true := by
    intro l; simp
  have htw : '/' ∉ name.takeWhile (fun c => decide (c ≠ '/')) := by
    intro h
    have := List.mem_takeWhile_imp h
    simp at this
  simp only [splitDockerDomain, List.span_eq_take_drop]
  split_ifs <;> simp_all
  rename_i h1 _ _
  by_cases hx : ∃ x ∈ List.takeWhile (fun c => !decide (c = '/')) name, x = '.' ∨ x = ':'
  · exact Or.inl hx
  · right
    apply h1.2
    intro x hxm
    exact ⟨fun hh => hx ⟨x, hxm, Or.inl hh⟩, fun hh => hx ⟨x, hxm, Or.inr hh⟩⟩

theorem splitDockerDomain_fix (d rem : List Char) (h1 : '/' ∉ d)
    (h2 : d.any (fun c => c = '.' || c = ':') = true ∨ d = "localhost".data)
    (h3 : d ≠ "index.docker.io".data)
    (h4 : d = "docker.io".data → rem.any (fun c => c = '/') = true) :
    splitDockerDomain (d ++ '/' :: rem) = (d, rem) := by
  have htw : (d ++ '/' :: rem).takeWhile (fun c => decide (c ≠ '/')) = d := by
    rw [List.takeWhile_append_of_pos (fun a ha => by
      simp only [ne_eq, decide_not, Bool.not_eq_true', decide_eq_false_iff_not]
      intro h; exact h1 (h ▸ ha))]
    simp
  have hdw : (d ++ '/' :: rem).dropWhile (fun c => decide (c ≠ '/')) = '/' :: rem := by
    rw [List.dropWhile_append_of_pos (fun a ha => by
      simp only [ne_eq, decide_not, Bool.not_eq_true', decide_eq_false_iff_not]
      intro h; exact h1 (h ▸ ha))]
    simp
  simp only [splitDockerDomain, List.span_eq_take_drop, htw, hdw]
  have hc : (decide (('/' :: rem) = []) ||
      (!d.any (fun c => decide (c = '.') || decide (c = ':')) &&
        decide (d ≠ "localhost".data))) = false := by
    rcases h2 with h | h
    · simp [h]
    · simp [h]
  simp only [hc, Bool.false_eq_true, if_false, List.tail_cons, h3]
  by_cases hd : d = "docker.io".data
  · simp [hd, h4 hd]
  · simp [hd]

end reference

namespace reference

theorem matchReference_some (s : List Char) (r : Ref) (h : matchReference s = some r) :
    (s.dropWhile (fun c => decide (c ≠ '@')) ≠ [] →
      isDigestFormat (s.dropWhile (fun c => decide (c ≠ '@'))).tail = true) ∧
    r.digest = ⟨(s.dropWhile (fun c => decide (c ≠ '@'))).tail⟩ ∧
    (if (decide (2 ≤ (nameSegments s).length) && isDomain ((nameSegments s).headD []) &&
          (nameSegments s).tail.all isNameComponent) = true then
        some (⟨⟨(nameSegments s).headD []⟩, ⟨List.intercalate ['/'] (nameSegments s).tail⟩,
          r.tag, r.digest⟩ : Ref)
      else if (nameSegments s).all isNameComponent = true then
        some ⟨"", ⟨List.intercalate ['/'] (nameSegments s)⟩, r.tag, r.digest⟩
      else none) = some r := by
  simp only [matchReference, List.span_eq_take_drop] at h
  simp only [nameSegments, List.span_eq_take_drop]
  split_ifs at h with h1 h2 h3
  · simp only [Option.some.injEq] at h
    subst h
    simp only [Bool.and_eq_true, Bool.or_eq_true, decide_eq_true_eq] at h1
    refine ⟨fun hne => ?_, rfl, by rw [if_pos h2]⟩
    rcases h1.1 with h | h
    · exact absurd h hne
    · exact h
  · simp only [Option.some.injEq] at h
    subst h
    simp only [Bool.and_eq_true, Bool.or_eq_true, decide_eq_true_eq] at h1
    refine ⟨fun hne => ?_, rfl, by rw [if_neg h2, if_pos h3]⟩
    rcases h1.1 with h | h
    · exact absurd h hne
    · exact h

theorem nameSegments_ne_nil (s : List Char) : nameSegments s ≠ [] := by
  simp [nameSegments]

theorem nameSegments_mem (s : List Char) (x : List Char) (hx : x ∈ nameSegments s) :
    '/' ∉ x ∧ '@' ∉ x := by
  simp only [nameSegments, List.span_eq_take_drop, List.mem_append, List.mem_singleton] at hx
  have hsub := splitOnP_run_subset (fun c => decide (c = '/'))
    (s.takeWhile (fun c => decide (c ≠ '@')))
  have hat : ∀ c ∈ s.takeWhile (fun c => decide (c ≠ '@')), c ≠ '@' := by
    intro c hc
    have := List.mem_takeWhile_imp hc
    simpa using this
  rcases hx with hx | hx
  · have hmem := List.mem_of_mem_dropLast hx
    constructor
    · intro hc
      have := (hsub x hmem '/' hc).1
      simp at this
    · intro hc
      exact hat '@' (hsub x hmem '@' hc).2 rfl
  · subst hx
    cases hl : ((s.takeWhile (fun c => decide (c ≠ '@'))).splitOnP
        (fun c => decide (c = '/'))).getLast? with
    | none => simp
    | some last =>
      have hmem := List.mem_of_getLast?_eq_some hl
      simp only [Option.getD_some]
      constructor
      · intro hc
        have := (hsub last hmem '/' ((List.takeWhile_prefix _).subset hc)).1
        simp at this
      · intro hc
        exact hat '@' (hsub last hmem '@' ((List.takeWhile_prefix _).subset hc)).2 rfl

theorem nameSegments_getLast (s : List Char) :
    ':' ∉ (nameSegments s).getLast (nameSegments_ne_nil s) := by
  simp only [nameSegments, List.span_eq_take_drop, List.getLast_append_singleton]
  intro hc
  have := List.mem_takeWhile_imp hc
  simp at this

end reference

namespace reference

theorem nameSegments_of_domain (d rem : List Char) (h1 : '/' ∉ d)
    (h2 : '/' ∉ (d ++ '/' :: rem).dropWhile (fun c => decide (c ≠ '@'))) :
    ∃ T, nameSegments (d ++ '/' :: rem) = d :: T ∧ T ≠ [] ∧ ('/' ∈ rem → 2 ≤ T.length) := by
  have hall : ∀ x ∈ d, (fun c => decide (c ≠ '@')) x = true := by
    by_contra hcon
    have hne : d.dropWhile (fun c => decide (c ≠ '@')) ≠ [] := by
      intro h
      exact hcon (List.dropWhile_eq_nil_iff.mp h)
    apply h2
    rw [List.dropWhile_append]
    have : (d.dropWhile (fun c => decide (c ≠ '@'))).isEmpty = false := by
      cases hd : d.dropWhile (fun c => decide (c ≠ '@')) with
      | nil => exact absurd hd hne
      | cons a t => rfl
    rw [this]
    simp
  have htw : (d ++ '/' :: rem).takeWhile (fun c => decide (c ≠ '@')) =
      d ++ '/' :: rem.takeWhile (fun c => decide (c ≠ '@')) := by
    rw [List.takeWhile_append_of_pos hall]
    simp
  have hdw : (d ++ '/' :: rem).dropWhile (fun c => decide (c ≠ '@')) =
      rem.dropWhile (fun c => decide (c ≠ '@')) := by
    rw [List.dropWhile_append_of_pos hall]
    simp
  have hsegs : (d ++ '/' :: rem.takeWhile (fun c => decide (c ≠ '@'))).splitOnP
      (fun c => decide (c = '/')) =
      d :: (rem.takeWhile (fun c => decide (c ≠ '@'))).splitOnP
        (fun c => decide (c = '/')) := by
    apply List.splitOnP_first
    · intro x hx hp
      simp only [decide_eq_true_eq] at hp
      exact h1 (hp ▸ hx)
    · simp
  obtain ⟨a, S, hS⟩ := List.exists_cons_of_ne_nil (List.splitOnP_ne_nil
    (fun c => decide (c = '/')) (rem.takeWhile (fun c => decide (c ≠ '@'))))
  refine ⟨(a :: S).dropLast ++ [((a :: S).getLast?.getD []).takeWhile
    (fun c => decide (c ≠ ':'))], ?_, by simp, ?_⟩
  · simp only [nameSegments, List.span_eq_take_drop, htw, hsegs, hS]
    simp [List.dropLast]
  · intro hr
    rw [hdw] at h2
    have hX : '/' ∈ rem.takeWhile (fun c => decide (c ≠ '@')) := by
      rw [← List.takeWhile_append_dropWhile (fun c => decide (c ≠ '@')) rem] at hr
      rcases List.mem_append.mp hr with h | h
      · exact h
      · exact absurd h h2
    have hlen := splitOnP_length_of_mem (fun c => decide (c = '/')) _ '/' hX (by simp)
    rw [hS] at hlen
    simp only [List.length_append, List.length_dropLast, List.length_cons, List.length_nil]
      at hlen ⊢
    omega

end reference

namespace reference

theorem matchReference_name_digest (N : List (List Char)) (dg : List Char) (hN : N ≠ [])
    (hs : ∀ x ∈ N, '/' ∉ x ∧ '@' ∉ x) (hl : ':' ∉ N.getLast hN)
    (hdg : isDigestFormat dg = true) :
    matchReference (List.intercalate ['/'] N ++ '@' :: dg) =
      if (decide (2 ≤ N.length) && isDomain (N.headD []) &&
          N.tail.all isNameComponent) = true then
        some ⟨⟨N.headD []⟩, ⟨List.intercalate ['/'] N.tail⟩, ⟨[]⟩, ⟨dg⟩⟩
      else if N.all isNameComponent = true then
        some ⟨"", ⟨List.intercalate ['/'] N⟩, ⟨[]⟩, ⟨dg⟩⟩
      else none := by
  have hI : ∀ c ∈ List.intercalate ['/'] N, (fun c => decide (c ≠ '@')) c = true := by
    intro c hc
    rcases mem_intercalate N c hc with h | ⟨x, hx, hcx⟩
    · subst h; decide
    · simp only [ne_eq, decide_not, Bool.not_eq_true', decide_eq_false_iff_not]
      intro h
      exact (hs x hx).2 (h ▸ hcx)
  have htw : (List.intercalate ['/'] N ++ '@' :: dg).takeWhile (fun c => decide (c ≠ '@')) =
      List.intercalate ['/'] N := by
    rw [List.takeWhile_append_of_pos hI]
    simp
  have hdw : (List.intercalate ['/'] N ++ '@' :: dg).dropWhile (fun c => decide (c ≠ '@')) =
      '@' :: dg := by
    rw [List.dropWhile_append_of_pos hI]
    simp
  have hsegs := splitOnP_slash_intercalate N hN (fun x hx => (hs x hx).1)
  have hlast : N.getLast?.getD [] = N.getLast hN := by
    rw [List.getLast?_eq_getLast _ hN]; rfl
  have hcol : ∀ c ∈ N.getLast hN, (fun c => decide (c ≠ ':')) c = true := by
    intro c hc
    simp only [ne_eq, decide_not, Bool.not_eq_true', decide_eq_false_iff_not]
    intro h
    exact hl (h ▸ hc)
  have htl : (N.getLast hN).takeWhile (fun c => decide (c ≠ ':')) = N.getLast hN :=
    List.takeWhile_eq_self_iff.mpr hcol
  have hdl : (N.getLast hN).dropWhile (fun c => decide (c ≠ ':')) = [] :=
    List.dropWhile_eq_nil_iff.mpr hcol
  have hnames : N.dropLast ++ [N.getLast hN] = N := List.dropLast_append_getLast hN
  simp only [matchReference, List.span_eq_take_drop, htw, hdw, hsegs, hlast, htl, hdl, hnames,
    List.tail_cons, hdg, List.tail_nil, Bool.or_true, decide_True, Bool.true_or,
    Bool.and_self, if_true]

end reference

namespace reference

theorem Parse_ok (x : String) (r : Ref) (h : Parse x = .ok r) :
    matchReference x.data = some r ∧ ¬ r.Name.length > 255 ∧
      (r.digest ≠ "" → isDigest r.digest.data = true) := by
  unfold Parse at h
  cases hm : matchReference x.data with
  | none =>
    rw [hm] at h
    simp only at h
    split_ifs at h
  | some r1 =>
    rw [hm] at h
    simp only at h
    split_ifs at h with h1 h2
    simp only [Except.ok.injEq] at h
    subst h
    refine ⟨rfl, h1, fun hd => ?_⟩
    simp only [Bool.and_eq_true, decide_eq_true_eq, Bool.not_eq_true', not_and,
      Bool.not_eq_false] at h2
    exact h2 hd

theorem Parse_of_match (x : String) (r : Ref) (hm : matchReference x.data = some r)
    (hlen : ¬ r.Name.length > 255) (hdg : r.digest ≠ "" → isDigest r.digest.data = true) :
    Parse x = .ok r := by
  unfold Parse
  rw [hm]
  simp only
  rw [if_neg hlen]
  have : (decide (r.digest ≠ "") && !isDigest r.digest.data) = false := by
    by_cases hd : r.digest = ""
    · simp [hd]
    · simp [hdg hd]
  rw [this]
  simp

theorem ParseNormalizedNamed_ok (s : String) (r : Ref)
    (h : ParseNormalizedNamed s = .ok r) :
    (((splitDockerDomain s.data).2.span (fun c => c ≠ ':')).1.any Char.isUpper) = false ∧
    Parse ⟨(splitDockerDomain s.data).1 ++ '/' :: (splitDockerDomain s.data).2⟩ = .ok r := by
  unfold ParseNormalizedNamed at h
  split_ifs at h with h1
  simp only at h
  split_ifs at h with h2
  exact ⟨by simpa using h2, h⟩

theorem ParseNormalizedNamed_of_Parse (s : String) (r : Ref)
    (h1 : (decide (s.length = 64) && s.data.all isLowerHex) = false)
    (h2 : (((splitDockerDomain s.data).2.span (fun c => c ≠ ':')).1.any Char.isUpper) = false)
    (h3 : Parse ⟨(splitDockerDomain s.data).1 ++ '/' :: (splitDockerDomain s.data).2⟩ =
      .ok r) :
    ParseNormalizedNamed s = .ok r := by
  unfold ParseNormalizedNamed
  rw [if_neg (by rw [h1]; simp)]
  simp only
  rw [if_neg (by rw [h2]; simp)]
  exact h3

end reference

namespace reference

theorem Ref.Name_data (r : Ref) (N : List (List Char)) (d : List Char) (T : List (List Char))
    (hN : N = d :: T) (hT : T ≠ [])
    (h : (r.domain = ⟨d⟩ ∧ d ≠ [] ∧ r.path = ⟨List.intercalate ['/'] T⟩) ∨
      (r.domain = "" ∧ r.path = ⟨List.intercalate ['/'] N⟩)) :
    r.Name.data = List.intercalate ['/'] N := by
  obtain ⟨a, T1, rfl⟩ := List.exists_cons_of_ne_nil hT
  subst hN
  rcases h with ⟨h1, h2, h3⟩ | ⟨h1, h2⟩
  · have hne : ¬ r.domain = "" := by
      rw [h1]
      intro hh
      exact h2 (congrArg String.data hh)
    rw [h1] at hne
    simp only [Ref.Name, h1, h3, hne, if_false, String.data_append]
    rw [intercalate_cons_cons]
  · simp only [Ref.Name, h1, if_true, h2]

theorem ParseNormalizedNamed_reparse (s : String) (r : Ref)
    (hp : ParseNormalizedNamed s = .ok r) (hd : r.digest ≠ "") :
    isDigestFormat r.digest.data = true ∧
    ParseNormalizedNamed ⟨r.Name.data ++ '@' :: r.digest.data⟩ = .ok { r with tag := "" } := by
  obtain ⟨hup, hP⟩ := ParseNormalizedNamed_ok s r hp
  obtain ⟨hm, hlen, hdgst⟩ := Parse_ok _ r hP
  obtain ⟨hd1, hd2, hd3, hd4⟩ := splitDockerDomain_out s.data
  generalize (splitDockerDomain s.data).1 = d at *
  generalize (splitDockerDomain s.data).2 = rem at *
  change matchReference (d ++ '/' :: rem) = some r at hm
  obtain ⟨hfmt, hdig, hbranch⟩ := matchReference_some (d ++ '/' :: rem) r hm
  have hdata : r.digest.data = ((d ++ '/' :: rem).dropWhile (fun c => decide (c ≠ '@'))).tail := by
    rw [hdig]
  have hdne : (d ++ '/' :: rem).dropWhile (fun c => decide (c ≠ '@')) ≠ [] := by
    intro h
    apply hd
    rw [hdig, h]
    rfl
  have hfmt2 : isDigestFormat r.digest.data = true := by
    rw [hdata]; exact hfmt hdne
  have hnoslash : '/' ∉ (d ++ '/' :: rem).dropWhile (fun c => decide (c ≠ '@')) := by
    intro hc
    have hhead := List.head_dropWhile_not (fun c => decide (c ≠ '@')) (d ++ '/' :: rem) hdne
    cases hdw : (d ++ '/' :: rem).dropWhile (fun c => decide (c ≠ '@')) with
    | nil => exact hdne hdw
    | cons x t =>
      simp only [hdw, List.head_cons] at hhead
      rw [hdw] at hc hdata
      rcases List.mem_cons.mp hc with h | h
      · subst h; simp at hhead
      · simp only [List.tail_cons] at hdata
        rw [← hdata] at h
        exact isDigestFormat_no_slash _ hfmt2 h
  obtain ⟨T, hN, hT, hTlen⟩ := nameSegments_of_domain d rem hd1 hnoslash
  rw [hN] at hbranch
  simp only [List.headD_cons, List.tail_cons, List.length_cons] at hbranch
  have hseg := nameSegments_mem (d ++ '/' :: rem)
  have hlast := nameSegments_getLast (d ++ '/' :: rem)
  have hne := nameSegments_ne_nil (d ++ '/' :: rem)
  rw [hN] at hseg
  simp only [hN] at hlast
  -- the components after the first segment
  have hTcomp : T.all isNameComponent = true := by
    split_ifs at hbranch with hA hB
    · simp only [Bool.and_eq_true] at hA
      exact hA.2
    · simp only [List.all_cons, Bool.and_eq_true] at hB
      exact hB.2
  have hName : r.Name.data = List.intercalate ['/'] (d :: T) := by
    apply Ref.Name_data r (d :: T) d T rfl hT
    split_ifs at hbranch with hA hB
    · simp only [Option.some.injEq] at hbranch
      left
      simp only [Bool.and_eq_true] at hA
      refine ⟨by rw [← hbranch], ?_, by rw [← hbranch]⟩
      intro h0
      rw [h0] at hA
      exact absurd hA.1.2 (by decide)
    · simp only [Option.some.injEq] at hbranch
      right
      exact ⟨by rw [← hbranch], by rw [← hbranch]⟩
  have hr2 : (if (decide (2 ≤ (d :: T).length) && isDomain ((d :: T).headD []) &&
          (d :: T).tail.all isNameComponent) = true then
        some (⟨⟨(d :: T).headD []⟩, ⟨List.intercalate ['/'] (d :: T).tail⟩, ⟨[]⟩,
          ⟨r.digest.data⟩⟩ : Ref)
      else if (d :: T).all isNameComponent = true then
        some ⟨"", ⟨List.intercalate ['/'] (d :: T)⟩, ⟨[]⟩, ⟨r.digest.data⟩⟩
      else none) = some { r with tag := "" } := by
    simp only [List.headD_cons, List.tail_cons, List.length_cons]
    split_ifs at hbranch with hA hB
    · rw [if_pos hA]
      simp only [Option.some.injEq] at hbranch ⊢
      rw [← hbranch]
    · rw [if_neg hA, if_pos hB]
      simp only [Option.some.injEq] at hbranch ⊢
      rw [← hbranch]
  have hmatch2 := matchReference_name_digest (d :: T) r.digest.data (List.cons_ne_nil _ _)
    hseg hlast hfmt2
  rw [hr2] at hmatch2
  -- the string that is parsed again
  obtain ⟨a, T1, rfl⟩ := List.exists_cons_of_ne_nil hT
  have hinput : r.Name.data ++ '@' :: r.digest.data =
      d ++ '/' :: (List.intercalate ['/'] (a :: T1) ++ '@' :: r.digest.data) := by
    rw [hName, intercalate_cons_cons]
    simp
  have hcompchar : ∀ c ∈ List.intercalate ['/'] (a :: T1), c ≠ ':' ∧ c.isUpper = false := by
    intro c hc
    rcases mem_intercalate _ c hc with h | ⟨x, hx, hcx⟩
    · subst h; exact ⟨by decide, by decide⟩
    · have hxc := List.all_eq_true.mp hTcomp x hx
      exact ⟨fun h => isNameComponent_no_colon x hxc (h ▸ hcx),
        isNameComponent_not_upper x hxc c hcx⟩
  have hsplit : splitDockerDomain (r.Name.data ++ '@' :: r.digest.data) =
      (d, List.intercalate ['/'] (a :: T1) ++ '@' :: r.digest.data) := by
    rw [hinput]
    apply splitDockerDomain_fix d _ hd1 hd2 hd3
    intro hdock
    have h4 := hd4 hdock
    have hrem : '/' ∈ rem := by
      simp only [List.any_eq_true, decide_eq_true_eq] at h4
      obtain ⟨x, hx, rfl⟩ := h4
      exact hx
    have h2 := hTlen hrem
    cases T1 with
    | nil => simp at h2
    | cons b T2 =>
      simp only [List.any_eq_true, decide_eq_true_eq]
      exact ⟨'/', List.mem_append_left _ (slash_mem_intercalate a b T2), rfl⟩
  refine ⟨hfmt2, ?_⟩
  apply ParseNormalizedNamed_of_Parse
  · have hat : (r.Name.data ++ '@' :: r.digest.data).all isLowerHex = false := by
      rw [List.all_eq_false]
      exact ⟨'@', by simp, by decide⟩
    show (decide (_ = 64) && (r.Name.data ++ '@' :: r.digest.data).all isLowerHex) = false
    rw [hat]
    simp
  · show ((splitDockerDomain (r.Name.data ++ '@' :: r.digest.data)).2.span
      (fun c => decide (c ≠ ':'))).1.any Char.isUpper = false
    rw [hsplit, List.span_eq_take_drop]
    simp only
    rw [List.takeWhile_append_of_pos (fun c hc => by
      simpa using (hcompchar c hc).1)]
    rw [List.any_eq_false]
    intro c hc
    rcases List.mem_append.mp hc with h | h
    · simp [(hcompchar c h).2]
    · have hcons : List.takeWhile (fun c => decide (c ≠ ':')) ('@' :: r.digest.data) =
          '@' :: List.takeWhile (fun c => decide (c ≠ ':')) r.digest.data := by
        simp [List.takeWhile_cons]
      rw [hcons] at h
      rcases List.mem_cons.mp h with h1 | h1
      · subst h1; decide
      · simp [isDigest_algorithm r.digest.data (hdgst hd) c h1]
  · show Parse ⟨(splitDockerDomain (r.Name.data ++ '@' :: r.digest.data)).1 ++
      '/' :: (splitDockerDomain (r.Name.data ++ '@' :: r.digest.data)).2⟩ = _
    rw [hsplit]
    simp only
    rw [← hinput]
    apply Parse_of_match
    · show matchReference (r.Name.data ++ '@' :: r.digest.data) = _
      rw [hName]
      exact hmatch2
    · exact hlen
    · intro _
      exact hdgst hd

end reference

/-! ## Normalization -/

theorem imageNamesWithDigestOrTag_pkgs_both (t : String) (r : reference.Ref)
    (hp : reference.ParseNormalizedNamed t = .ok r) (ht : r.tag ≠ "") (hd : r.digest ≠ "") :
    imageNamesWithDigestOrTag pkgs t =
      (⟨r.Name.data ++ '@' :: r.digest.data⟩, none) := by
  have hfmt := (reference.ParseNormalizedNamed_reparse t r hp hd).1
  have hp2 : pkgs.ParseNormalizedNamed t = .ok r := hp
  have hw : pkgs.WithDigest (pkgs.TrimNamed r) (pkgs.DigestOf r) =
      .ok { r with tag := "" } := by
    show reference.WithDigest (reference.TrimNamed r) r.digest = _
    simp [reference.WithDigest, reference.TrimNamed, hfmt]
  have hboth : (pkgs.isNamedTagged r && pkgs.isCanonical r) = true := by
    show (decide (r.tag ≠ "") && decide (r.digest ≠ "")) = true
    simp [ht, hd]
  unfold imageNamesWithDigestOrTag
  rw [hp2]
  simp only [hboth, if_true, hw]
  show (reference.Ref.String { r with tag := "" }, (none : Option GoError)) = _
  congr 1
  apply String.ext
  simp [reference.Ref.String, reference.Ref.Name, hd, String.data_append]

theorem imageNamesWithDigestOrTag_pkgs_idempotent (t r : String)
    (h : imageNamesWithDigestOrTag pkgs t = (r, none)) :
    imageNamesWithDigestOrTag pkgs r = (r, none) := by
  cases hp : reference.ParseNormalizedNamed t with
  | error e =>
    have hp2 : pkgs.ParseNormalizedNamed t = .error e := hp
    unfold imageNamesWithDigestOrTag at h
    rw [hp2] at h
    simp at h
  | ok ref =>
    by_cases hboth : ref.tag ≠ "" ∧ ref.digest ≠ ""
    · rw [imageNamesWithDigestOrTag_pkgs_both t ref hp hboth.1 hboth.2] at h
      simp only [Prod.mk.injEq, and_true] at h
      subst h
      have hre := (reference.ParseNormalizedNamed_reparse t ref hp hboth.2).2
      have hre2 : pkgs.ParseNormalizedNamed ⟨ref.Name.data ++ '@' :: ref.digest.data⟩ =
          .ok { ref with tag := "" } := hre
      have hnot : (pkgs.isNamedTagged { ref with tag := "" } &&
          pkgs.isCanonical { ref with tag := "" }) = false := by
        show (decide (("" : String) ≠ "") && _) = false
        simp
      unfold imageNamesWithDigestOrTag
      rw [hre2]
      simp only [hnot, Bool.false_eq_true, if_false]
    · have hp2 : pkgs.ParseNormalizedNamed t = .ok ref := hp
      have hnot : (pkgs.isNamedTagged ref && pkgs.isCanonical ref) = false := by
        show (decide (ref.tag ≠ "") && decide (ref.digest ≠ "")) = false
        by_cases h1 : ref.tag = ""
        · simp [h1]
        · have h2 : ref.digest = "" := by
            by_contra h2; exact hboth ⟨h1, h2⟩
          simp [h2]
      have h' := h
      unfold imageNamesWithDigestOrTag at h
      rw [hp2] at h
      simp only [hnot, Bool.false_eq_true, if_false, Prod.mk.injEq, and_true] at h
      subst h
      exact h'

/-- C11: for an image reference that parses with both a tag and a digest,
`imageNamesWithDigestOrTag` returns, without error, the string of the reference that
`reference.WithDigest` builds from the trimmed name and the digest; with the reference
package of `pkgs` that call succeeds for every such reference and the string is the
normalized repository name followed by `@` and the digest, the tag dropped. -/
theorem imageNamesWithDigestOrTag_tag_and_digest (P : Packages) (s : String)
    (ref c : P.Named) (hp : P.ParseNormalizedNamed s = .ok ref)
    (ht : P.isNamedTagged ref = true) (hd : P.isCanonical ref = true)
    (hw : P.WithDigest (P.TrimNamed ref) (P.DigestOf ref) = .ok c) :
    imageNamesWithDigestOrTag P s = (P.RefString c, none) ∧
    ∀ (t : String) (r : reference.Ref), reference.ParseNormalizedNamed t = .ok r →
      r.tag ≠ "" → r.digest ≠ "" →
      imageNamesWithDigestOrTag pkgs t = (r.Name ++ "@" ++ r.digest, none) ∧
      reference.WithDigest (reference.TrimNamed r) r.digest =
        .ok ⟨r.domain, r.path, "", r.digest⟩ := by
  constructor
  · unfold imageNamesWithDigestOrTag
    rw [hp]
    simp only [ht, hd, Bool.and_self, if_true, hw]
  · intro t r hpt htag hdig
    constructor
    · rw [imageNamesWithDigestOrTag_pkgs_both t r hpt htag hdig]
      congr 1
      apply String.ext
      simp [String.data_append]
    · have hfmt := (reference.ParseNormalizedNamed_reparse t r hpt hdig).1
      simp [reference.WithDigest, reference.TrimNamed, hfmt]

theorem imageNamesWithDigestOrTag_tag_and_digest_witness :
    imageNamesWithDigestOrTag pkgs
        "nginx:1.21@sha256:0123456789abcdef0123456789abcdef0123456789abcdef0123456789abcdef" =
      ("docker.io/library/nginx@sha256:0123456789abcdef0123456789abcdef0123456789abcdef0123456789abcdef",
        none) :=
  (imageNamesWithDigestOrTag_tag_and_digest pkgs
    "nginx:1.21@sha256:0123456789abcdef0123456789abcdef0123456789abcdef0123456789abcdef"
    ⟨"docker.io", "library/nginx", "1.21",
      "sha256:0123456789abcdef0123456789abcdef0123456789abcdef0123456789abcdef"⟩
    ⟨"docker.io", "library/nginx", "",
      "sha256:0123456789abcdef0123456789abcdef0123456789abcdef0123456789abcdef"⟩
    rfl (by decide) (by decide) rfl).1

/-- C15 (amended): for an image reference that parses and does not carry both a tag and a
digest, one without a registry host included, `imageNamesWithDigestOrTag` returns the input
string unchanged, no default registry or namespace prepended; and normalization is
idempotent: when it succeeds on an input with result `r`, it succeeds on `r` and returns
`r`. -/
theorem imageNamesWithDigestOrTag_idempotent (P : Packages) (s : String) (ref : P.Named)
    (hp : P.ParseNormalizedNamed s = .ok ref)
    (hnot : (P.isNamedTagged ref && P.isCanonical ref) = false) :
    imageNamesWithDigestOrTag P s = (s, none) ∧
    imageNamesWithDigestOrTag P (imageNamesWithDigestOrTag P s).1 = (s, none) ∧
    ∀ t r : String, imageNamesWithDigestOrTag pkgs t = (r, none) →
      imageNamesWithDigestOrTag pkgs r = (r, none) := by
  have h1 : imageNamesWithDigestOrTag P s = (s, none) := by
    unfold imageNamesWithDigestOrTag
    rw [hp]
    simp only [hnot, Bool.false_eq_true, if_false]
  refine ⟨h1, ?_, imageNamesWithDigestOrTag_pkgs_idempotent⟩
  rw [h1]
  exact h1

theorem imageNamesWithDigestOrTag_idempotent_witness :
    imageNamesWithDigestOrTag pkgs "a.io/x:latest" = ("a.io/x:latest", none) ∧
    imageNamesWithDigestOrTag pkgs
        "nginx:1.21@sha256:0123456789abcdef0123456789abcdef0123456789abcdef0123456789abcdef" =
      ("docker.io/library/nginx@sha256:0123456789abcdef0123456789abcdef0123456789abcdef0123456789abcdef",
        none) ∧
    imageNamesWithDigestOrTag pkgs
        "docker.io/library/nginx@sha256:0123456789abcdef0123456789abcdef0123456789abcdef0123456789abcdef" =
      ("docker.io/library/nginx@sha256:0123456789abcdef0123456789abcdef0123456789abcdef0123456789abcdef",
        none) :=
  have h := imageNamesWithDigestOrTag_idempotent pkgs "a.io/x:latest"
    ⟨"a.io", "x", "latest", ""⟩ rfl (by decide)
  ⟨h.1, by decide, h.2.2
    "nginx:1.21@sha256:0123456789abcdef0123456789abcdef0123456789abcdef0123456789abcdef"
    "docker.io/library/nginx@sha256:0123456789abcdef0123456789abcdef0123456789abcdef0123456789abcdef"
    (by decide)⟩

theorem imageNamesWithDigestOrTag_idempotent_counterexample :
    reference.ParseNormalizedNamed "nginx" = .ok ⟨"docker.io", "library/nginx", "", ""⟩ ∧
    reference.Ref.Name ⟨"docker.io", "library/nginx", "", ""⟩ = "docker.io/library/nginx" ∧
    imageNamesWithDigestOrTag pkgs "nginx" = ("nginx", none) ∧
    imageNamesWithDigestOrTag pkgs "foo/bar:1" = ("foo/bar:1", none) :=
  ⟨rfl, by decide, by decide, by decide⟩

end Kubeimageswap
